import Mathlib

/-!
# Verification of the `parallel` library core

A shallow embedding, in Lean 4, of the core of the `parallel` Go library:

* the streaming XML `TagSplitter` (package `record`): `Split`, `copyContent`,
  `pruneBuf`, `indexOpeningTag`, `indexClosingTag`;
* the line-oriented parallel `Processor.Run` driver (package `parallel`).

Bytes are modelled as natural numbers, byte slices as `List Nat`.  Go's
`bytes.Index` is `bytesIndex` below.  Stateful Go code is modelled by explicit
state passing: each Go method that mutates its receiver becomes a Lean
function that returns the updated state alongside the original return values.
-/

namespace Parallel

/-- A byte string, as in Go's `[]byte`. -/
abbrev Bytes := List Nat

/-- Bytes of an ASCII string literal (Go's `[]byte(s)` for ASCII `s`). -/
def strBytes (s : String) : Bytes := s.toList.map Char.toNat

/-- Go's `bytes.Index(data, pat)`: index of the first occurrence of `pat` as a
contiguous sublist of `data`, or `none`.  `bytes.Index(data, [])` is `0`. -/
def bytesIndex : Bytes → Bytes → Option Nat
  | data, pat =>
    if pat.isPrefixOf data then some 0
    else
      match data with
      | [] => none
      | _ :: rest => (bytesIndex rest pat).map (· + 1)

theorem bytesIndex_nil (pat : Bytes) (h : pat ≠ []) : bytesIndex [] pat = none := by
  cases pat with
  | nil => simp at h
  | cons a l => simp [bytesIndex, List.isPrefixOf]

theorem bytesIndex_cons (b : Nat) (data pat : Bytes) :
    bytesIndex (b :: data) pat =
      if pat.isPrefixOf (b :: data) then some 0
      else (bytesIndex data pat).map (· + 1) := by
  conv_lhs => rw [bytesIndex]

/-- If `bytesIndex` finds `pat` at `i`, then `pat` is a prefix of `data.drop i`. -/
theorem bytesIndex_prefix_of_some {data pat : Bytes} {i : Nat}
    (h : bytesIndex data pat = some i) : pat.isPrefixOf (data.drop i) := by
  induction data generalizing i with
  | nil =>
    rw [bytesIndex] at h
    split at h
    · simp_all
    · simp at h
  | cons b rest ih =>
    rw [bytesIndex_cons] at h
    split at h
    · rename_i hp; cases h; simpa using hp
    · cases i with
      | zero => simp at h
      | succ j =>
        simp only [Option.map_eq_some'] at h
        obtain ⟨k, hk, hkj⟩ := h
        have : k = j := by omega
        subst this
        simpa using ih hk

/-- `bytesIndex` finds the first occurrence: no occurrence strictly earlier. -/
theorem bytesIndex_some_least {data pat : Bytes} {i : Nat}
    (h : bytesIndex data pat = some i) :
    ∀ j < i, ¬ pat.isPrefixOf (data.drop j) := by
  induction data generalizing i with
  | nil =>
    rw [bytesIndex] at h
    split at h
    · cases h; omega
    · simp at h
  | cons b rest ih =>
    rw [bytesIndex_cons] at h
    split at h
    · cases h; omega
    · rename_i hnp
      cases i with
      | zero => simp at h
      | succ k =>
        simp only [Option.map_eq_some'] at h
        obtain ⟨m, hm, hmk⟩ := h
        have : m = k := by omega
        subst this
        intro j hj
        cases j with
        | zero => simpa using hnp
        | succ j' =>
          have := ih hm j' (by omega)
          simpa using this

/-- If no index of `data` starts an occurrence of `pat`, `bytesIndex` is `none`. -/
theorem bytesIndex_none_of_forall {data pat : Bytes}
    (h : ∀ j, ¬ pat.isPrefixOf (data.drop j)) : bytesIndex data pat = none := by
  induction data with
  | nil =>
    rw [bytesIndex]
    split
    · rename_i hp; exact absurd (by simpa using hp) (by simpa using h 0)
    · rfl
  | cons b rest ih =>
    rw [bytesIndex_cons]
    split
    · rename_i hp; exact absurd (by simpa using hp) (by simpa using h 0)
    · rw [ih fun j => by simpa using h (j + 1)]
      rfl

/-- If `bytesIndex` is `none`, no index starts an occurrence. -/
theorem bytesIndex_none_forall {data pat : Bytes}
    (h : bytesIndex data pat = none) : ∀ j, ¬ pat.isPrefixOf (data.drop j) := by
  induction data with
  | nil =>
    intro j hj
    rw [List.drop_nil] at hj
    rw [bytesIndex] at h
    split at h
    · simp at h
    · rename_i hnp; exact hnp hj
  | cons b rest ih =>
    rw [bytesIndex_cons] at h
    split at h
    · simp at h
    · rename_i hnp
      intro j
      cases j with
      | zero => simpa using hnp
      | succ j' =>
        have hrest : bytesIndex rest pat = none := by
          cases hbr : bytesIndex rest pat with
          | none => rfl
          | some k => rw [hbr] at h; simp at h
        simpa using ih hrest j'

/-- `bytesIndex` finds an occurrence iff one exists. -/
theorem bytesIndex_isSome_iff {data pat : Bytes} :
    (bytesIndex data pat).isSome ↔ ∃ j, pat.isPrefixOf (data.drop j) := by
  constructor
  · intro h
    obtain ⟨i, hi⟩ := Option.isSome_iff_exists.mp h
    exact ⟨i, bytesIndex_prefix_of_some hi⟩
  · intro ⟨j, hj⟩
    cases h : bytesIndex data pat with
    | none => exact absurd hj (bytesIndex_none_forall h j)
    | some i => simp

/-- The index returned by `bytesIndex` is at most the length of `data`. -/
theorem bytesIndex_some_le_length {data pat : Bytes} {i : Nat}
    (h : bytesIndex data pat = some i) : i ≤ data.length := by
  induction data generalizing i with
  | nil =>
    rw [bytesIndex] at h
    split at h
    · cases h; simp
    · simp at h
  | cons b rest ih =>
    rw [bytesIndex_cons] at h
    split at h
    · cases h; simp
    · cases i with
      | zero => simp
      | succ k =>
        simp only [Option.map_eq_some'] at h
        obtain ⟨m, hm, hmk⟩ := h
        have : m = k := by omega
        subst this
        have := ih hm
        simp only [List.length_cons]
        omega

/-- An occurrence found by `bytesIndex` lies entirely inside `data`. -/
theorem bytesIndex_some_le {data pat : Bytes} {i : Nat}
    (h : bytesIndex data pat = some i) : i + pat.length ≤ data.length := by
  have hp := bytesIndex_prefix_of_some h
  have hpre := List.isPrefixOf_iff_prefix.mp hp
  have hlen := hpre.length_le
  rw [List.length_drop] at hlen
  have := bytesIndex_some_le_length h
  omega

/-- Full characterization: `bytesIndex` returns the least index of an occurrence. -/
theorem bytesIndex_eq_some_iff {data pat : Bytes} {i : Nat} :
    bytesIndex data pat = some i ↔
      (pat.isPrefixOf (data.drop i) ∧ ∀ j < i, ¬ pat.isPrefixOf (data.drop j)) := by
  constructor
  · intro h
    exact ⟨bytesIndex_prefix_of_some h, bytesIndex_some_least h⟩
  · rintro ⟨hp, hleast⟩
    cases h : bytesIndex data pat with
    | none => exact absurd hp (bytesIndex_none_forall h i)
    | some k =>
      rcases Nat.lt_trichotomy k i with hki | hki | hki
      · exact absurd (bytesIndex_prefix_of_some h) (hleast k hki)
      · rw [hki]
      · exact absurd hp (bytesIndex_some_least h i hki)

/-- Occurrence as a contiguous sublist: `bytesIndex` succeeds iff `pat` is an
infix of `data`. -/
theorem bytesIndex_infix_iff {data pat : Bytes} :
    (bytesIndex data pat).isSome ↔ pat <:+: data := by
  rw [bytesIndex_isSome_iff]
  constructor
  · rintro ⟨j, hj⟩
    exact (List.isPrefixOf_iff_prefix.mp hj).isInfix.trans
      (List.drop_suffix j data).isInfix
  · rintro ⟨pre, suf, hps⟩
    refine ⟨pre.length, List.isPrefixOf_iff_prefix.mpr ?_⟩
    subst hps
    rw [List.append_assoc, List.drop_left' rfl]
    exact ⟨suf, rfl⟩

/-- No occurrence in `data` means no occurrence in any `drop` of `data`. -/
theorem bytesIndex_drop_none {data pat : Bytes} (k : Nat)
    (h : bytesIndex data pat = none) : bytesIndex (data.drop k) pat = none := by
  apply bytesIndex_none_of_forall
  intro j
  rw [List.drop_drop, Nat.add_comm]
  exact bytesIndex_none_forall h (j + k)

/-- No occurrence in `data` means no occurrence in any infix of `data`. -/
theorem bytesIndex_infix_none {data sub pat : Bytes} (hinf : sub <:+: data)
    (h : bytesIndex data pat = none) : bytesIndex sub pat = none := by
  cases hs : bytesIndex sub pat with
  | none => rfl
  | some i =>
    have : (bytesIndex data pat).isSome := by
      rw [bytesIndex_infix_iff]
      exact ((bytesIndex_infix_iff).mp (by simp [hs])).trans hinf
    rw [h] at this
    simp at this

/-- A prefix of an append that fits in the first part is a prefix of it. -/
theorem isPrefixOf_append_left {p a b : Bytes} (h : p.isPrefixOf (a ++ b))
    (hlen : p.length ≤ a.length) : p.isPrefixOf a := by
  rw [List.isPrefixOf_iff_prefix] at h ⊢
  have := List.prefix_iff_eq_take.mp h
  rw [List.take_append_of_le_length hlen] at this
  exact this ▸ List.take_prefix _ _

/-- An occurrence wholly inside `data` survives appending more bytes. -/
theorem bytesIndex_append_of_some {data ext pat : Bytes} {i : Nat}
    (h : bytesIndex data pat = some i) : bytesIndex (data ++ ext) pat = some i := by
  have hle := bytesIndex_some_le h
  have hil := bytesIndex_some_le_length h
  rw [bytesIndex_eq_some_iff]
  refine ⟨?_, ?_⟩
  · rw [List.drop_append_of_le_length hil, List.isPrefixOf_iff_prefix]
    exact (List.isPrefixOf_iff_prefix.mp (bytesIndex_prefix_of_some h)).trans
      (List.prefix_append _ _)
  · intro j hj hpj
    have hjd : j ≤ data.length := by omega
    rw [List.drop_append_of_le_length hjd] at hpj
    have hfit : pat.length ≤ (data.drop j).length := by
      rw [List.length_drop]; omega
    exact bytesIndex_some_least h j hj (isPrefixOf_append_left hpj hfit)

/-! ## The `record.TagSplitter` (streaming XML tag splitter)

Embedding of the Go type `record.TagSplitter` and its methods `maxBytes`,
`pruneBuf`, `indexOpeningTag`, `indexClosingTag`, `copyContent` and `Split`.
The precomputed patterns (`once`/`ensureTags`) are functions of the tag. -/

namespace Record

/-- `defaultMaxBytes`: the default approximate batch size (16 MiB). -/
def defaultMaxBytes : Nat := 16777216

/-- `internalBufferPruneLimit`: number of bytes kept in the prune heuristic. -/
def internalBufferPruneLimit : Nat := 16384

/-- `maxBufSize`: hard cap (1 GiB) on the internal buffer. -/
def maxBufSize : Nat := 1073741824

/-- The error values surfaced by `TagSplitter.Split` (plus `io.EOF`). -/
inductive SplitError where
  | tagRequired
  | garbledInput
  | nestedTagsNotImplemented
  | maxBufSizeExceeded
  | eof
deriving DecidableEq, Repr

/-- Internal result of `copyContent` (`errOpenTagNotFound` is the private
sentinel error of the Go code). -/
inductive CopyErr where
  | maxBufSizeExceeded
  | garbledInput
  | nestedTagsNotImplemented
  | openTagNotFound
deriving DecidableEq, Repr

/-- State of a `record.TagSplitter`.  `Tag` is the element name as bytes (Go
keeps it as a string); `buf` is the internal scratch space; `batch` the
staging buffer for complete elements; `done` the termination flag. -/
structure TagSplitter where
  Tag : Parallel.Bytes
  MaxBytesApprox : Nat := 0
  buf : Parallel.Bytes := []
  batch : Parallel.Bytes := []
  done : Bool := false
deriving DecidableEq, Repr

/-- `s.closingTag`: the bytes of `"</" + Tag + ">"`. -/
def closingTagOf (tag : Parallel.Bytes) : Parallel.Bytes := 60 :: 47 :: tag ++ [62]

/-- `s.openingTag1`: the bytes of `"<" + Tag + ">"`. -/
def openingTag1Of (tag : Parallel.Bytes) : Parallel.Bytes := 60 :: tag ++ [62]

/-- `s.openingTag2`: the bytes of `"<" + Tag + " "`. -/
def openingTag2Of (tag : Parallel.Bytes) : Parallel.Bytes := 60 :: tag ++ [32]

/-- `TagSplitter.maxBytes`: the maximum byte size per batch. -/
def TagSplitter.maxBytes (s : TagSplitter) : Nat :=
  if s.MaxBytesApprox = 0 then defaultMaxBytes else s.MaxBytesApprox

/-- `TagSplitter.indexOpeningTag`: index of the first opening tag
(`<tag>` or `<tag ` variant) in `data`, or `none`. -/
def TagSplitter.indexOpeningTag (s : TagSplitter) (data : Parallel.Bytes) : Option Nat :=
  match Parallel.bytesIndex data (openingTag1Of s.Tag),
        Parallel.bytesIndex data (openingTag2Of s.Tag) with
  | none, none => none
  | some u, none => some u
  | none, some v => some v
  | some u, some v => if u < v then some u else some v

/-- `TagSplitter.indexClosingTag`: index of the first closing tag in `data`. -/
def TagSplitter.indexClosingTag (s : TagSplitter) (data : Parallel.Bytes) : Option Nat :=
  Parallel.bytesIndex data (closingTagOf s.Tag)

/-- `TagSplitter.pruneBuf`: shrink the internal buffer to its trailing half
when it holds at least `max (2*len data) internalBufferPruneLimit` bytes. -/
def TagSplitter.pruneBuf (s : TagSplitter) (dataLen : Nat) : TagSplitter :=
  let L := max (2 * dataLen) internalBufferPruneLimit
  if s.buf.length < L then s
  else { s with buf := s.buf.drop (s.buf.length / 2) }

/-- Go slice `l[a:b]`. -/
def sliceGo (l : Parallel.Bytes) (a b : Nat) : Parallel.Bytes := (l.take b).drop a

/-- `TagSplitter.copyContent`: read at most one element content from the
internal buffer and append it to the batch; returns the updated splitter,
the number of bytes written, and an error, mirroring the Go control flow. -/
def TagSplitter.copyContent (s : TagSplitter) : TagSplitter × Nat × Option CopyErr :=
  if maxBufSize < s.buf.length then (s, 0, some .maxBufSizeExceeded)
  else
    match s.indexOpeningTag s.buf with
    | none => (s, 0, some .openTagNotFound)
    | some start =>
      match s.indexClosingTag s.buf with
      | none => (s, 0, none)
      | some en =>
        if en < start then (s, 0, some .garbledInput)
        else
          let last := en + s.Tag.length + 3
          match s.indexOpeningTag (sliceGo s.buf (start + 1) en) with
          | some _ => (s, 0, some .nestedTagsNotImplemented)
          | none =>
            ({ s with batch := s.batch ++ sliceGo s.buf start last,
                      buf := s.buf.drop last },
             last - start, none)

theorem copyContent_tag (s : TagSplitter) :
    (s.copyContent.1.Tag = s.Tag ∧ s.copyContent.1.MaxBytesApprox = s.MaxBytesApprox ∧
     s.copyContent.1.done = s.done) := by
  unfold TagSplitter.copyContent
  repeat' split
  all_goals exact ⟨rfl, rfl, rfl⟩

/-- On a successful non-trivial `copyContent`, the buffer strictly shrinks. -/
theorem copyContent_buf_lt {s s' : TagSplitter} {n : Nat}
    (h : s.copyContent = (s', n, none)) (hn : n ≠ 0) :
    s'.buf.length < s.buf.length := by
  unfold TagSplitter.copyContent at h
  split at h
  · simp at h
  · split at h
    · simp at h
    · rename_i start hstart
      split at h
      · simp at h; omega
      · rename_i en hen
        split at h
        · simp at h
        · split at h
          · simp at h
          · rename_i hnest
            have hle : en + (closingTagOf s.Tag).length ≤ s.buf.length :=
              Parallel.bytesIndex_some_le hen
            have hct : (closingTagOf s.Tag).length = s.Tag.length + 3 := by
              simp [closingTagOf]
            simp only [Prod.mk.injEq] at h
            obtain ⟨hs', hn', -⟩ := h
            subst hs'
            simp only [List.length_drop]
            omega

/-- Result of one `Split` call: updated splitter, `advance`, `token`, `err`. -/
abbrev SplitResult := TagSplitter × Nat × Option Parallel.Bytes × Option SplitError

/-- The `n == 0` exit of the `Split` loop: at EOF mark done and flush any
non-empty batch; otherwise return to the caller requesting more data. -/
def splitFinish (s : TagSplitter) (dataLen : Nat) (atEOF : Bool) : SplitResult :=
  if atEOF then
    if s.batch.length = 0 then ({ s with done := true }, dataLen, none, none)
    else ({ s with done := true }, dataLen, some s.batch, none)
  else (s, dataLen, none, none)

/-- The `for` loop of `TagSplitter.Split`, with explicit fuel (each further
iteration strictly shrinks the buffer, so `s.buf.length + 1` suffices): emit
the batch once it reaches `maxBytes`, otherwise extract elements one at a
time via `copyContent`, pruning the buffer when no opening tag is found. -/
def splitLoopF : Nat → TagSplitter → Nat → Bool → SplitResult
  | 0, s, dataLen, _ => (s, dataLen, none, none)
  | fuel + 1, s, dataLen, atEOF =>
    if s.maxBytes ≤ s.batch.length then
      ({ s with batch := [] }, dataLen, some s.batch, none)
    else
      match s.copyContent with
      | (s', n, cerr) =>
        match cerr with
        | some .openTagNotFound => splitFinish (s'.pruneBuf dataLen) dataLen atEOF
        | some .maxBufSizeExceeded => (s', dataLen, none, some .maxBufSizeExceeded)
        | some .garbledInput => (s', dataLen, none, some .garbledInput)
        | some .nestedTagsNotImplemented =>
            (s', dataLen, none, some .nestedTagsNotImplemented)
        | none =>
            if n = 0 then splitFinish s' dataLen atEOF
            else splitLoopF fuel s' dataLen atEOF

/-- Any fuel exceeding the buffer length gives the same (fuel-free) result. -/
theorem splitLoopF_congr :
    ∀ fuel₁ fuel₂ (s : TagSplitter) (dataLen : Nat) (atEOF : Bool),
      s.buf.length < fuel₁ → s.buf.length < fuel₂ →
      splitLoopF fuel₁ s dataLen atEOF = splitLoopF fuel₂ s dataLen atEOF := by
  intro fuel₁
  induction fuel₁ with
  | zero => intro fuel₂ s dataLen atEOF h₁ h₂; omega
  | succ f ih =>
    intro fuel₂ s dataLen atEOF h₁ h₂
    cases fuel₂ with
    | zero => omega
    | succ g =>
      simp only [splitLoopF]
      split
      · rfl
      · cases hcc : s.copyContent with
        | mk s' rest =>
          cases rest with
          | mk n cerr =>
            cases cerr with
            | none =>
              simp only
              split
              · rfl
              · rename_i hn
                have hlt := copyContent_buf_lt hcc hn
                exact ih g s' dataLen atEOF (by omega) (by omega)
            | some e => cases e <;> rfl

/-- The `for` loop of `TagSplitter.Split` (fuel instantiated). -/
def splitLoop (s : TagSplitter) (dataLen : Nat) (atEOF : Bool) : SplitResult :=
  splitLoopF (s.buf.length + 1) s dataLen atEOF

/-- The loop unfolds exactly as the Go `for` loop does. -/
theorem splitLoop_eq (s : TagSplitter) (dataLen : Nat) (atEOF : Bool) :
    splitLoop s dataLen atEOF =
      if s.maxBytes ≤ s.batch.length then
        ({ s with batch := [] }, dataLen, some s.batch, none)
      else
        match s.copyContent with
        | (s', n, cerr) =>
          match cerr with
          | some .openTagNotFound => splitFinish (s'.pruneBuf dataLen) dataLen atEOF
          | some .maxBufSizeExceeded => (s', dataLen, none, some .maxBufSizeExceeded)
          | some .garbledInput => (s', dataLen, none, some .garbledInput)
          | some .nestedTagsNotImplemented =>
              (s', dataLen, none, some .nestedTagsNotImplemented)
          | none =>
              if n = 0 then splitFinish s' dataLen atEOF
              else splitLoop s' dataLen atEOF := by
  unfold splitLoop
  conv_lhs => rw [splitLoopF]
  split
  · rfl
  · cases hcc : s.copyContent with
    | mk s' rest =>
      cases rest with
      | mk n cerr =>
        cases cerr with
        | none =>
          simp only
          split
          · rfl
          · rename_i hn
            have hlt := copyContent_buf_lt hcc hn
            exact splitLoopF_congr _ _ s' dataLen atEOF (by omega) (by omega)
        | some e => cases e <;> rfl

/-- `TagSplitter.Split`: the `bufio.SplitFunc` of the tag splitter. -/
def TagSplitter.Split (s : TagSplitter) (data : Parallel.Bytes) (atEOF : Bool) :
    SplitResult :=
  if s.Tag = [] then (s, 0, none, some .tagRequired)
  else if s.done then (s, data.length, none, some .eof)
  else splitLoop { s with buf := s.buf ++ data } data.length atEOF

/-- Feed a sequence of `(data, atEOF)` chunks to successive `Split` calls,
collecting the emitted tokens in order (errors do not stop the sequence). -/
def runSplitCalls (s : TagSplitter) :
    List (Parallel.Bytes × Bool) → TagSplitter × List Parallel.Bytes
  | [] => (s, [])
  | (d, ae) :: rest =>
    match s.Split d ae with
    | (s', _, t, _) =>
      let r := runSplitCalls s' rest
      (r.1, t.toList ++ r.2)

/-- Chunked calls in the claim protocol: `atEOF` exactly on the last chunk. -/
def chunkCalls : List Parallel.Bytes → List (Parallel.Bytes × Bool)
  | [] => []
  | [d] => [(d, true)]
  | d :: rest => (d, false) :: chunkCalls rest

/-- Concatenation of the tokens emitted over a run. -/
def tokensConcat (s : TagSplitter) (calls : List (Parallel.Bytes × Bool)) :
    Parallel.Bytes :=
  (runSplitCalls s calls).2.flatten

/-- A complete element span as extracted by `copyContent`: the bytes start
with an opening tag of `tag` at position 0, end exactly at the end of the
first closing tag, and contain no further opening tag strictly between the
opening and the closing (nested same-name elements are unsupported). -/
def IsElemSpan (tag e : Parallel.Bytes) : Prop :=
  ({ Tag := tag } : TagSplitter).indexOpeningTag e = some 0 ∧
  ∃ en, Parallel.bytesIndex e (closingTagOf tag) = some en ∧
    e.length = en + tag.length + 3 ∧
    ({ Tag := tag } : TagSplitter).indexOpeningTag (sliceGo e 1 en) = none

/-- Shape of an emitted token: a concatenation of one or more complete
element spans, whose prefix before the final element is below the batch
bound `mb` (so a token exceeds `mb` only by its final element). -/
def TokenOK (mb : Nat) (tag t : Parallel.Bytes) : Prop :=
  ∃ elems : List Parallel.Bytes, elems ≠ [] ∧ (∀ e ∈ elems, IsElemSpan tag e) ∧
    t = elems.flatten ∧ elems.dropLast.flatten.length < mb

/-- Invariant of the staging batch: it is a concatenation of complete element
spans whose prefix before the final element is below the batch bound. -/
def BatchInv (s : TagSplitter) : Prop :=
  ∃ elems : List Parallel.Bytes, (∀ e ∈ elems, IsElemSpan s.Tag e) ∧
    s.batch = elems.flatten ∧ elems.dropLast.flatten.length < s.maxBytes

/-- 1 GiB of tag-free noise (the byte `'.'`), for the memory-bound analysis. -/
def c2Noise : Parallel.Bytes := List.replicate 1073741824 46

/-- Three 1-GiB noise chunks fed to successive `Split` calls. -/
def c2Calls : List (Parallel.Bytes × Bool) :=
  [(c2Noise, false), (c2Noise, false), (c2Noise, false)]

/-- An opening tag of `tag` (either the `<tag>` or the `<tag ` variant)
occurs in `w` at position `j`. -/
def openOccAt (tag w : Parallel.Bytes) (j : Nat) : Prop :=
  (openingTag1Of tag).isPrefixOf (w.drop j) ∨
  (openingTag2Of tag).isPrefixOf (w.drop j)

/-- Canonical single-pass element extraction from a byte sequence (fuel
version): repeatedly locate the first opening tag and the first closing tag
at or after it, peel that element span off, and stop when either is missing.
Returns the extracted element spans in order and the unconsumed remainder. -/
def canonF : Nat → Parallel.Bytes → Parallel.Bytes →
    List Parallel.Bytes × Parallel.Bytes
  | 0, _, v => ([], v)
  | fuel + 1, tag, v =>
    match TagSplitter.indexOpeningTag { Tag := tag } v with
    | none => ([], v)
    | some p =>
      match Parallel.bytesIndex (v.drop p) (closingTagOf tag) with
      | none => ([], v)
      | some e =>
        let r := canonF fuel tag (v.drop (p + e + tag.length + 3))
        (sliceGo v p (p + e + tag.length + 3) :: r.1, r.2)

/-- Canonical extraction with sufficient fuel (each step strictly shrinks
the sequence, so `v.length + 1` suffices). -/
def canon (tag v : Parallel.Bytes) : List Parallel.Bytes × Parallel.Bytes :=
  canonF (v.length + 1) tag v

/-- Drained run, part 1: feed the chunks to successive `Split` calls with
`atEOF = false` (as `bufio.Scanner` does while input remains), collecting
the emitted tokens; the Boolean records whether every call returned a nil
error. -/
def feedChunks (s : TagSplitter) :
    List Parallel.Bytes → List Parallel.Bytes × TagSplitter × Bool
  | [] => ([], s, true)
  | d :: rest =>
    match s.Split d false with
    | (s', _, t, none) =>
      let r := feedChunks s' rest
      (t.toList ++ r.1, r.2.1, r.2.2)
    | (s', _, t, some _) => (t.toList, s', false)

/-- Termination measure of the end-of-input drain: every token-yielding
error-free `Split([], true)` call strictly decreases it. -/
def drainMeasure (s : TagSplitter) : Nat :=
  2 * s.buf.length + (if s.maxBytes ≤ s.batch.length then 1 else 0) +
    (if s.done then 0 else 2)

/-- Drained run, part 2 (fuel version): at end of input `bufio.Scanner`
keeps calling `Split([], true)` until no token is produced; tokens are
collected in order, and the Boolean records a clean stop (a nil error or
`io.EOF`, which `bufio.Scanner.Err` reports as no error). -/
def drainF : Nat → TagSplitter → List Parallel.Bytes × Bool
  | 0, _ => ([], false)
  | fuel + 1, s =>
    match s.Split [] true with
    | (s', _, some t, none) =>
      let r := drainF fuel s'
      (t :: r.1, r.2)
    | (_, _, some _, some _) => ([], false)
    | (_, _, none, none) => ([], true)
    | (_, _, none, some e) => ([], e == SplitError.eof)

/-- A full drained run as driven by `bufio.Scanner`: feed all chunks, then
drain at end of input; returns all emitted tokens in order and whether the
whole run finished without an error. -/
def runDrain (s : TagSplitter) (chunks : List Parallel.Bytes) :
    List Parallel.Bytes × Bool :=
  let f := feedChunks s chunks
  let dr := drainF (drainMeasure f.2.1 + 1) f.2.1
  (f.1 ++ dr.1, f.2.2 && dr.2)

/-- Mid-run invariant tying a live splitter to the canonical extraction of
the consumed prefix `u.take m` of the total stream `u`: the flattened tokens
so far (`acc`) plus the staged batch plus the canonical content of the
buffer equal the flattened canonical elements of the prefix, and the buffer
tracks the canonical remainder up to a dropped prefix in which (even with
the future input appended) no opening tag can start. -/
def C1Inv (tag u : Parallel.Bytes) (m : Nat) (acc : Parallel.Bytes)
    (s : TagSplitter) : Prop :=
  s.Tag = tag ∧ s.done = false ∧
  acc ++ s.batch ++ (canon tag s.buf).1.flatten =
    (canon tag (u.take m)).1.flatten ∧
  ∃ k, k ≤ (canon tag (u.take m)).2.length ∧
    (canon tag s.buf).2 = (canon tag (u.take m)).2.drop k ∧
    ∀ j < k, ¬ openOccAt tag ((canon tag (u.take m)).2 ++ u.drop m) j

end Record

namespace Proc

/-! ## The line-oriented `Processor.Run` (package `parallel`, processor.go)

The concurrent Go driver is modelled by a deterministic schedule: a batch
handed to the queue is processed (by a worker) and its results written (by
the sink) before the read loop continues.  The shared `wErr` variable is an
overwriting assignment (`wErr = err` on every non-nil error), modelled
exactly so.  An unbuffered channel send completes only if at least one
worker goroutine was spawned (`NumWorkers` loop iterations), so with
`NumWorkers <= 0` every send blocks forever: a blocked run is `none`.
The run result is instrumented with the ordered list of non-nil errors the
workers observed, used to state the error-latch properties. -/

/-- ASCII byte whitespace, the fast path of Go's `bytes.TrimSpace`
(multi-byte UTF-8 whitespace is outside this model). -/
def goIsSpace (b : Nat) : Bool :=
  b == 9 || b == 10 || b == 11 || b == 12 || b == 13 || b == 32

/-- `len(bytes.TrimSpace(b)) == 0` for ASCII data. -/
def trimmedEmpty (b : Parallel.Bytes) : Bool := b.all goIsSpace

/-- `bufio.Reader.ReadBytes(sep)` loop of `Processor.Run` (with fuel): each
call yields the bytes up to and including the separator; at end of input
with no separator the partial read is discarded (`if err == io.EOF break`). -/
def readRecordsF : Nat → Nat → Parallel.Bytes → List Parallel.Bytes
  | 0, _, _ => []
  | fuel + 1, sep, input =>
    match Parallel.bytesIndex input [sep] with
    | none => []
    | some i => input.take (i + 1) :: readRecordsF fuel sep (input.drop (i + 1))

/-- The records `Processor.Run` reads from `input` (fuel instantiated). -/
def readRecords (sep : Nat) (input : Parallel.Bytes) : List Parallel.Bytes :=
  readRecordsF (input.length + 1) sep input

theorem readRecordsF_congr :
    ∀ fuel₁ fuel₂ sep (input : Parallel.Bytes),
      input.length < fuel₁ → input.length < fuel₂ →
      readRecordsF fuel₁ sep input = readRecordsF fuel₂ sep input := by
  intro fuel₁
  induction fuel₁ with
  | zero => intro fuel₂ sep input h₁ h₂; omega
  | succ f ih =>
    intro fuel₂ sep input h₁ h₂
    cases fuel₂ with
    | zero => omega
    | succ g =>
      simp only [readRecordsF]
      cases hix : Parallel.bytesIndex input [sep] with
      | none => rfl
      | some i =>
        have hle := Parallel.bytesIndex_some_le hix
        simp only [List.length_cons, List.length_nil] at hle
        have hlt : (input.drop (i + 1)).length < input.length := by
          rw [List.length_drop]
          omega
        exact congrArg (List.take (i + 1) input :: ·)
          (ih g sep _ (by omega) (by omega))

/-- The read loop unfolds as the Go loop does. -/
theorem readRecords_eq (sep : Nat) (input : Parallel.Bytes) :
    readRecords sep input =
      match Parallel.bytesIndex input [sep] with
      | none => []
      | some i => input.take (i + 1) :: readRecords sep (input.drop (i + 1)) := by
  unfold readRecords
  conv_lhs => rw [readRecordsF]
  cases hix : Parallel.bytesIndex input [sep] with
  | none => rfl
  | some i =>
    have hle := Parallel.bytesIndex_some_le hix
    simp only [List.length_cons, List.length_nil] at hle
    have hlt : (input.drop (i + 1)).length < input.length := by
      rw [List.length_drop]
      omega
    exact congrArg (List.take (i + 1) input :: ·)
      (readRecordsF_congr input.length ((input.drop (i + 1)).length + 1) sep _
        (by omega) (by omega))

/-- One worker iteration over one batch: `r, err := f(b); if err != nil
{ wErr = err }; out <- r`.  Returns the final latch value, the results sent
to the sink (in order) and the non-nil errors observed (in order). -/
def processBatch {E : Type} (f : Parallel.Bytes → Parallel.Bytes × Option E) :
    Option E → List Parallel.Bytes → Option E × List Parallel.Bytes × List E
  | wErr, [] => (wErr, [], [])
  | wErr, b :: rest =>
    let r := f b
    let w1 := match r.2 with
      | some e => some e
      | none => wErr
    let rec3 := processBatch f w1 rest
    (rec3.1, r.1 :: rec3.2.1, r.2.toList ++ rec3.2.2)

/-- The read/dispatch loop of `Processor.Run` over the record list, plus the
unconditional final `queue <- batch.Slice()`.  `none` models a run that
never returns (a send on the unbuffered queue with no worker spawned). -/
def runLoop {E : Type} (numWorkers : Int)
    (f : Parallel.Bytes → Parallel.Bytes × Option E) (batchSize : Nat) :
    List Parallel.Bytes → Option E → List Parallel.Bytes →
      Option (Option E × List Parallel.Bytes × List E)
  | [], wErr, batch =>
    if numWorkers ≤ 0 then none
    else some (processBatch f wErr batch)
  | r :: rest, wErr, batch =>
    let batch1 := batch ++ [r]
    if batch1.length = batchSize then
      if wErr.isSome then
        -- break out of the read loop; the final send still dispatches batch1
        if numWorkers ≤ 0 then none
        else some (processBatch f wErr batch1)
      else
        if numWorkers ≤ 0 then none
        else
          let step := processBatch f wErr batch1
          (runLoop numWorkers f batchSize rest step.1 []).map
            (fun rest3 => (rest3.1, step.2.1 ++ rest3.2.1, step.2.2 ++ rest3.2.2))
    else runLoop numWorkers f batchSize rest wErr batch1

/-- `Processor.Run`: read records, skip empty lines when configured, batch
and dispatch them, return the latched error with the written results and
the observed-error trace (or `none` for a run that never returns). -/
def ProcessorRun {E : Type} (numWorkers : Int) (batchSize : Nat) (sep : Nat)
    (skipEmpty : Bool) (f : Parallel.Bytes → Parallel.Bytes × Option E)
    (input : Parallel.Bytes) :
    Option (Option E × List Parallel.Bytes × List E) :=
  runLoop numWorkers f batchSize
    ((readRecords sep input).filter fun b => !(skipEmpty && trimmedEmpty b))
    none []

/-- The value of an overwriting error latch after observing the errors of
`tr` in order, starting from `wErr`: the most recent error, if any. -/
def latchAfter {E : Type} (wErr : Option E) (tr : List E) : Option E :=
  match tr.getLast? with
  | some e => some e
  | none => wErr

/-- A transformation that fails on every record, its error the first byte. -/
def failingTransform : Parallel.Bytes → Parallel.Bytes × Option Nat :=
  fun b => ([], some (b.headD 0))

/-- The identity transformation, which never fails. -/
def idTransform : Parallel.Bytes → Parallel.Bytes × Option Nat :=
  fun b => (b, none)

end Proc

end Parallel

namespace Parallel.Record

/-! ## Claim C9: `TagRequired` on unset tag -/

/-- **C9**: for every call `TagSplitter.Split(data, atEOF)` on a splitter whose
`Tag` field is the empty string, the call returns the `TagRequired` error with
zero advance and no token, regardless of `data` and `atEOF`. -/
theorem C9_tagRequired_of_empty_tag (s : TagSplitter) (data : Parallel.Bytes)
    (atEOF : Bool) (h : s.Tag = []) :
    s.Split data atEOF = (s, 0, none, some .tagRequired) := by
  simp [TagSplitter.Split, h]

/-- Witness for C9 at a concrete splitter and input. -/
theorem C9_tagRequired_witness :
    ({ Tag := [] } : TagSplitter).Split (strBytes "</a>...<a>") true =
      ({ Tag := [] }, 0, none, some .tagRequired) :=
  C9_tagRequired_of_empty_tag _ _ _ rfl

/-! ## Claim C5: rejection of nested same-name tags -/

/-- **C5**: whenever (with a non-empty tag, before end of stream, with the
staged batch below the emission threshold and the buffer within the hard cap)
the splitter's buffer — the carried-over scratch plus the new data — contains
an opening tag of the target at `st`, a closing tag at `en ≥ st`, and a
further opening tag of the same name strictly between the two, `Split`
returns the nested-tags error and emits no token. -/
theorem C5_nested_same_tag_rejected (s : TagSplitter) (data : Parallel.Bytes)
    (atEOF : Bool) (st en : Nat)
    (htag : s.Tag ≠ []) (hdone : s.done = false)
    (hbatch : s.batch.length < s.maxBytes)
    (hsize : (s.buf ++ data).length ≤ maxBufSize)
    (hst : s.indexOpeningTag (s.buf ++ data) = some st)
    (hen : s.indexClosingTag (s.buf ++ data) = some en)
    (hse : st ≤ en)
    (hnest : s.indexOpeningTag (sliceGo (s.buf ++ data) (st + 1) en) ≠ none) :
    s.Split data atEOF =
      ({ s with buf := s.buf ++ data }, data.length, none,
        some .nestedTagsNotImplemented) := by
  have hTag : ({ s with buf := s.buf ++ data } : TagSplitter).Tag = s.Tag := rfl
  rw [TagSplitter.Split, if_neg htag, if_neg (by simp [hdone])]
  rw [splitLoop_eq]
  have hmb : ¬ (({ s with buf := s.buf ++ data } : TagSplitter).maxBytes ≤
      ({ s with buf := s.buf ++ data } : TagSplitter).batch.length) := by
    simpa [TagSplitter.maxBytes] using Nat.not_le.mpr hbatch
  rw [if_neg hmb]
  have hcc : ({ s with buf := s.buf ++ data } : TagSplitter).copyContent =
      ({ s with buf := s.buf ++ data }, 0, some .nestedTagsNotImplemented) := by
    rw [TagSplitter.copyContent]
    rw [if_neg (by simpa using Nat.not_lt.mpr hsize)]
    have h1 : ({ s with buf := s.buf ++ data } : TagSplitter).indexOpeningTag
        (s.buf ++ data) = some st := hst
    have h2 : ({ s with buf := s.buf ++ data } : TagSplitter).indexClosingTag
        (s.buf ++ data) = some en := hen
    rw [show ({ s with buf := s.buf ++ data } : TagSplitter).buf = s.buf ++ data
      from rfl, h1, h2]
    simp only [if_neg (Nat.not_lt.mpr hse)]
    obtain ⟨k, hk⟩ := Option.ne_none_iff_exists'.mp hnest
    have h3 : ({ s with buf := s.buf ++ data } : TagSplitter).indexOpeningTag
        (sliceGo (s.buf ++ data) (st + 1) en) = some k := hk
    rw [h3]
  rw [hcc]

/-- Witness for C5: `"<a><a></a></a>"` with tag `a` is rejected. -/
theorem C5_nested_witness :
    ({ Tag := strBytes "a" } : TagSplitter).Split (strBytes "<a><a></a></a>") false =
      ({ Tag := strBytes "a", buf := strBytes "<a><a></a></a>" },
        (strBytes "<a><a></a></a>").length, none, some .nestedTagsNotImplemented) := by
  have := C5_nested_same_tag_rejected ({ Tag := strBytes "a" } : TagSplitter)
    (strBytes "<a><a></a></a>") false 0 6
    (by decide) rfl (by decide) (by decide) (by decide) (by decide) (by decide)
    (by decide)
  simpa using this

/-! ## Claim C4: opening-tag location and prefix safety -/

/-- `indexOpeningTag` returns exactly the least index at which either the
exact opening form `<tag>` or the attribute form `<tag ` occurs. -/
theorem indexOpeningTag_eq_some_iff (s : TagSplitter) (data : Parallel.Bytes)
    (i : Nat) :
    s.indexOpeningTag data = some i ↔
      ((openingTag1Of s.Tag).isPrefixOf (data.drop i) ∨
       (openingTag2Of s.Tag).isPrefixOf (data.drop i)) ∧
      (∀ j < i, ¬ (openingTag1Of s.Tag).isPrefixOf (data.drop j) ∧
                ¬ (openingTag2Of s.Tag).isPrefixOf (data.drop j)) := by
  unfold TagSplitter.indexOpeningTag
  cases h1 : Parallel.bytesIndex data (openingTag1Of s.Tag) with
  | none =>
    cases h2 : Parallel.bytesIndex data (openingTag2Of s.Tag) with
    | none =>
      simp only
      constructor
      · intro h; cases h
      · rintro ⟨hocc, -⟩
        rcases hocc with hp | hp
        · exact absurd hp (Parallel.bytesIndex_none_forall h1 i)
        · exact absurd hp (Parallel.bytesIndex_none_forall h2 i)
    | some v =>
      simp only [Option.some.injEq]
      constructor
      · rintro rfl
        refine ⟨Or.inr (Parallel.bytesIndex_prefix_of_some h2), ?_⟩
        intro j hj
        exact ⟨Parallel.bytesIndex_none_forall h1 j,
               Parallel.bytesIndex_some_least h2 j hj⟩
      · rintro ⟨hocc, hleast⟩
        rcases hocc with hp | hp
        · exact absurd hp (Parallel.bytesIndex_none_forall h1 i)
        · rcases Nat.lt_trichotomy v i with hlt | heq | hlt
          · exact absurd (Parallel.bytesIndex_prefix_of_some h2) (hleast v hlt).2
          · exact heq
          · exact absurd hp (Parallel.bytesIndex_some_least h2 i hlt)
  | some u =>
    cases h2 : Parallel.bytesIndex data (openingTag2Of s.Tag) with
    | none =>
      simp only [Option.some.injEq]
      constructor
      · rintro rfl
        refine ⟨Or.inl (Parallel.bytesIndex_prefix_of_some h1), ?_⟩
        intro j hj
        exact ⟨Parallel.bytesIndex_some_least h1 j hj,
               Parallel.bytesIndex_none_forall h2 j⟩
      · rintro ⟨hocc, hleast⟩
        rcases hocc with hp | hp
        · rcases Nat.lt_trichotomy u i with hlt | heq | hlt
          · exact absurd (Parallel.bytesIndex_prefix_of_some h1) (hleast u hlt).1
          · exact heq
          · exact absurd hp (Parallel.bytesIndex_some_least h1 i hlt)
        · exact absurd hp (Parallel.bytesIndex_none_forall h2 i)
    | some v =>
      simp only
      constructor
      · intro h
        by_cases huv : u < v
        · rw [if_pos huv, Option.some.injEq] at h
          obtain rfl := h
          refine ⟨Or.inl (Parallel.bytesIndex_prefix_of_some h1), ?_⟩
          intro j hj
          exact ⟨Parallel.bytesIndex_some_least h1 j hj,
                 Parallel.bytesIndex_some_least h2 j (by omega)⟩
        · rw [if_neg huv, Option.some.injEq] at h
          obtain rfl := h
          refine ⟨Or.inr (Parallel.bytesIndex_prefix_of_some h2), ?_⟩
          intro j hj
          exact ⟨Parallel.bytesIndex_some_least h1 j (by omega),
                 Parallel.bytesIndex_some_least h2 j hj⟩
      · rintro ⟨hocc, hleast⟩
        have hu_ge : ¬ u < i := fun hc =>
          (hleast u hc).1 (Parallel.bytesIndex_prefix_of_some h1)
        have hv_ge : ¬ v < i := fun hc =>
          (hleast v hc).2 (Parallel.bytesIndex_prefix_of_some h2)
        have hmem : u = i ∨ v = i := by
          rcases hocc with hp | hp
          · left
            by_contra hne
            exact Parallel.bytesIndex_some_least h1 i (by omega) hp
          · right
            by_contra hne
            exact Parallel.bytesIndex_some_least h2 i (by omega) hp
        split
        · rename_i hlt
          rcases hmem with h | h
          · exact congrArg some h
          · exact congrArg some (by omega)
        · rename_i hlt
          rcases hmem with h | h
          · exact congrArg some (by omega)
          · exact congrArg some h

/-! ### Element extraction produces complete element spans -/

theorem closingTag_length (tag : Parallel.Bytes) :
    (closingTagOf tag).length = tag.length + 3 := by
  simp [closingTagOf]

theorem openingTag1_length (tag : Parallel.Bytes) :
    (openingTag1Of tag).length = tag.length + 2 := by
  simp [openingTag1Of]

theorem openingTag2_length (tag : Parallel.Bytes) :
    (openingTag2Of tag).length = tag.length + 2 := by
  simp [openingTag2Of]

theorem maxBytes_pos (s : TagSplitter) : 0 < s.maxBytes := by
  unfold TagSplitter.maxBytes
  split
  · decide
  · omega

theorem isPrefixOf_take {p l : Parallel.Bytes} {m : Nat}
    (h : p.isPrefixOf l) (hm : p.length ≤ m) : p.isPrefixOf (l.take m) := by
  rw [List.isPrefixOf_iff_prefix] at *
  exact List.prefix_take_iff.mpr ⟨h, hm⟩

theorem isPrefixOf_of_take {p l : Parallel.Bytes} {m : Nat}
    (h : p.isPrefixOf (l.take m)) : p.isPrefixOf l := by
  rw [List.isPrefixOf_iff_prefix] at *
  exact (List.prefix_take_iff.mp h).1

theorem indexOpeningTag_tagOnly (s : TagSplitter) (d : Parallel.Bytes) :
    ({ Tag := s.Tag } : TagSplitter).indexOpeningTag d = s.indexOpeningTag d := rfl

/-- A successful extraction step: `copyContent` appends one complete element
span (located between the first opening tag and the first closing tag of the
buffer) to the batch and drops it from the buffer. -/
theorem copyContent_success {s s' : TagSplitter} {n : Nat}
    (h : s.copyContent = (s', n, none)) (hn : n ≠ 0) :
    ∃ st en, s.indexOpeningTag s.buf = some st ∧
      Parallel.bytesIndex s.buf (closingTagOf s.Tag) = some en ∧ st ≤ en ∧
      s' = { s with
              batch := s.batch ++ sliceGo s.buf st (en + s.Tag.length + 3),
              buf := s.buf.drop (en + s.Tag.length + 3) } ∧
      n = en + s.Tag.length + 3 - st ∧
      IsElemSpan s.Tag (sliceGo s.buf st (en + s.Tag.length + 3)) := by
  unfold TagSplitter.copyContent at h
  split at h
  · simp at h
  · split at h
    · simp at h
    · rename_i st hst
      split at h
      · simp at h; omega
      · rename_i en hen
        split at h
        · simp at h
        · rename_i hse
          split at h
          · simp at h
          · rename_i hnest
            simp only [Prod.mk.injEq] at h
            obtain ⟨hs', hn', -⟩ := h
            have hsele : st ≤ en := by omega
            refine ⟨st, en, hst, hen, hsele, hs'.symm, hn'.symm, ?_⟩
            -- Notation for the span and its endpoints.
            set T := s.Tag.length with hT
            have hctlen : (closingTagOf s.Tag).length = T + 3 := closingTag_length _
            have hlast : en + T + 3 ≤ s.buf.length := by
              have := Parallel.bytesIndex_some_le hen
              omega
            have hoccm := (indexOpeningTag_eq_some_iff s s.buf st).mp hst
            obtain ⟨hocc, -⟩ := hoccm
            have he_eq : sliceGo s.buf st (en + T + 3) =
                (s.buf.drop st).take (en + T + 3 - st) := by
              rw [sliceGo, List.drop_take]
            have helen : (sliceGo s.buf st (en + T + 3)).length = en + T + 3 - st := by
              rw [he_eq, List.length_take, List.length_drop]
              omega
            refine ⟨?_, en - st, ?_, ?_, ?_⟩
            · -- opening tag at position 0 of the span
              rw [indexOpeningTag_tagOnly]
              rw [indexOpeningTag_eq_some_iff]
              refine ⟨?_, by omega⟩
              rw [List.drop_zero, he_eq]
              rcases hocc with hp | hp
              · exact Or.inl (isPrefixOf_take hp (by rw [openingTag1_length]; omega))
              · exact Or.inr (isPrefixOf_take hp (by rw [openingTag2_length]; omega))
            · -- first closing tag of the span sits at `en - st`
              rw [Parallel.bytesIndex_eq_some_iff]
              constructor
              · have hdrop : (sliceGo s.buf st (en + T + 3)).drop (en - st) =
                    (s.buf.drop en).take (T + 3) := by
                  rw [he_eq, List.drop_take, List.drop_drop]
                  have h1 : en + T + 3 - st - (en - st) = T + 3 := by omega
                  have h2 : st + (en - st) = en := by omega
                  rw [h1, h2]
                rw [hdrop]
                exact isPrefixOf_take (Parallel.bytesIndex_prefix_of_some hen)
                  (by rw [hctlen])
              · intro j hj hpj
                have hdropj : (sliceGo s.buf st (en + T + 3)).drop j =
                    (s.buf.drop (st + j)).take (en + T + 3 - st - j) := by
                  rw [he_eq, List.drop_take, List.drop_drop]
                have := isPrefixOf_of_take (hdropj ▸ hpj)
                exact Parallel.bytesIndex_some_least hen (st + j) (by omega) this
            · omega
            · -- no nested opening tag strictly inside the span
              rw [indexOpeningTag_tagOnly]
              have e1 : List.drop st (List.take (en + T + 3) s.buf) =
                  List.take (en + T + 3 - st) (List.drop st s.buf) :=
                List.drop_take _ _ _
              have e2 : List.take (en - st)
                    (List.take (en + T + 3 - st) (List.drop st s.buf)) =
                  List.take (en - st) (List.drop st s.buf) := by
                rw [List.take_take,
                  inf_eq_left.mpr (by omega : en - st ≤ en + T + 3 - st)]
              have e3 : List.drop 1 (List.take (en - st) (List.drop st s.buf)) =
                  List.take (en - st - 1) (List.drop (st + 1) s.buf) := by
                rw [List.drop_take, List.drop_drop]
              have e4 : List.drop (st + 1) (List.take en s.buf) =
                  List.take (en - (st + 1)) (List.drop (st + 1) s.buf) :=
                List.drop_take _ _ _
              have hslice : sliceGo (sliceGo s.buf st (en + T + 3)) 1 (en - st) =
                  sliceGo s.buf (st + 1) en := by
                rw [sliceGo, sliceGo, sliceGo, e1, e2, e3, e4]
                first
                | rfl
                | (congr 1; omega)
              rw [hslice]
              exact hnest

theorem maxBytes_congr {s₁ s₂ : TagSplitter}
    (h : s₁.MaxBytesApprox = s₂.MaxBytesApprox) : s₁.maxBytes = s₂.maxBytes := by
  unfold TagSplitter.maxBytes
  rw [h]

theorem BatchInv_transfer {a b : TagSplitter} (hT : a.Tag = b.Tag)
    (hB : a.batch = b.batch) (hM : a.MaxBytesApprox = b.MaxBytesApprox)
    (h : BatchInv b) : BatchInv a := by
  obtain ⟨elems, h1, h2, h3⟩ := h
  refine ⟨elems, ?_, ?_, ?_⟩
  · rw [hT]; exact h1
  · rw [hB]; exact h2
  · rw [maxBytes_congr hM]; exact h3

theorem pruneBuf_Tag (s : TagSplitter) (dl : Nat) : (s.pruneBuf dl).Tag = s.Tag := by
  unfold TagSplitter.pruneBuf
  dsimp only
  split <;> rfl

theorem pruneBuf_MBA (s : TagSplitter) (dl : Nat) :
    (s.pruneBuf dl).MaxBytesApprox = s.MaxBytesApprox := by
  unfold TagSplitter.pruneBuf
  dsimp only
  split <;> rfl

theorem pruneBuf_batch (s : TagSplitter) (dl : Nat) :
    (s.pruneBuf dl).batch = s.batch := by
  unfold TagSplitter.pruneBuf
  dsimp only
  split <;> rfl

theorem pruneBuf_done (s : TagSplitter) (dl : Nat) :
    (s.pruneBuf dl).done = s.done := by
  unfold TagSplitter.pruneBuf
  dsimp only
  split <;> rfl

/-- `copyContent` error outcomes leave the splitter untouched (`n = 0`). -/
theorem copyContent_err {s s' : TagSplitter} {n : Nat} {e : CopyErr}
    (h : s.copyContent = (s', n, some e)) : s' = s ∧ n = 0 := by
  unfold TagSplitter.copyContent at h
  repeat' split at h
  all_goals simp_all

/-- `copyContent` with zero bytes copied leaves the splitter untouched. -/
theorem copyContent_zero {s s' : TagSplitter} {cerr : Option CopyErr}
    (h : s.copyContent = (s', 0, cerr)) : s' = s := by
  unfold TagSplitter.copyContent at h
  repeat' split at h
  all_goals simp only [Prod.mk.injEq] at h
  all_goals try (obtain ⟨h1, -, -⟩ := h; exact h1.symm)
  all_goals (obtain ⟨-, h2, -⟩ := h; omega)

/-- Postcondition of `splitFinish`. -/
theorem splitFinish_post {s : TagSplitter} {dl : Nat} {ae : Bool}
    {s' : TagSplitter} {adv : Nat} {t : Option Parallel.Bytes}
    {err : Option SplitError}
    (h : splitFinish s dl ae = (s', adv, t, err)) (hinv : BatchInv s)
    (hlt : s.batch.length < s.maxBytes) :
    (s'.Tag = s.Tag ∧ s'.MaxBytesApprox = s.MaxBytesApprox) ∧ BatchInv s' ∧
    (∀ x, t = some x → TokenOK s.maxBytes s.Tag x) ∧
    (t = none → s'.batch.length < s'.maxBytes) := by
  unfold splitFinish at h
  split at h
  · split at h
    · rename_i hb
      simp only [Prod.mk.injEq] at h
      obtain ⟨hs', -, ht, -⟩ := h
      subst hs'
      refine ⟨⟨rfl, rfl⟩, ?_, ?_, ?_⟩
      · exact BatchInv_transfer rfl rfl rfl hinv
      · intro x hx; rw [← ht] at hx; cases hx
      · intro _
        show s.batch.length < s.maxBytes
        exact hlt
    · rename_i hb
      simp only [Prod.mk.injEq] at h
      obtain ⟨hs', -, ht, -⟩ := h
      subst hs'
      refine ⟨⟨rfl, rfl⟩, ?_, ?_, ?_⟩
      · exact BatchInv_transfer rfl rfl rfl hinv
      · intro x hx
        rw [← ht] at hx
        cases hx
        obtain ⟨elems, h1, h2, h3⟩ := hinv
        refine ⟨elems, ?_, h1, h2, h3⟩
        intro he
        rw [he] at h2
        simp at h2
        exact hb (by rw [h2]; rfl)
      · intro hx; rw [← ht] at hx; cases hx
  · simp only [Prod.mk.injEq] at h
    obtain ⟨hs', -, ht, -⟩ := h
    subst hs'
    refine ⟨⟨rfl, rfl⟩, hinv, ?_, fun _ => hlt⟩
    intro x hx; rw [← ht] at hx; cases hx

/-- Postcondition of the `Split` loop: the batch invariant is maintained, any
emitted token is a non-empty concatenation of complete element spans whose
prefix before the last element is below the bound, and if no token is emitted
the staged batch is below the bound. -/
theorem splitLoopF_post :
    ∀ (fuel : Nat) (s : TagSplitter) (dl : Nat) (ae : Bool)
      (s' : TagSplitter) (adv : Nat) (t : Option Parallel.Bytes)
      (err : Option SplitError),
      s.buf.length < fuel → BatchInv s →
      splitLoopF fuel s dl ae = (s', adv, t, err) →
      (s'.Tag = s.Tag ∧ s'.MaxBytesApprox = s.MaxBytesApprox) ∧ BatchInv s' ∧
      (∀ x, t = some x → TokenOK s.maxBytes s.Tag x) ∧
      (t = none → s'.batch.length < s'.maxBytes) := by
  intro fuel
  induction fuel with
  | zero => intro s dl ae s' adv t err hf; omega
  | succ f ih =>
    intro s dl ae s' adv t err hf hinv h
    rw [splitLoopF] at h
    split at h
    · -- batch already at the bound: emit it
      rename_i hge
      simp only [Prod.mk.injEq] at h
      obtain ⟨hs', -, ht, -⟩ := h
      subst hs'
      refine ⟨⟨rfl, rfl⟩, ?_, ?_, ?_⟩
      · exact ⟨[], by simp, by simp, by simpa using maxBytes_pos s⟩
      · intro x hx
        rw [← ht] at hx
        cases hx
        obtain ⟨elems, h1, h2, h3⟩ := hinv
        refine ⟨elems, ?_, h1, h2, h3⟩
        intro he
        rw [he] at h2
        simp at h2
        have : s.batch.length = 0 := by rw [h2]; rfl
        have := maxBytes_pos s
        omega
      · intro hx; rw [← ht] at hx; cases hx
    · rename_i hflt
      have hblt : s.batch.length < s.maxBytes := by omega
      cases hcc : s.copyContent with
      | mk s₀ rest =>
        cases rest with
        | mk n cerr =>
          rw [hcc] at h
          cases cerr with
          | none =>
            simp only at h
            split at h
            · -- n = 0: no complete element, return to caller
              rename_i hn0
              subst hn0
              have hs0 : s₀ = s := copyContent_zero hcc
              subst hs0
              exact splitFinish_post h hinv hblt
            · -- extracted one element, loop again
              rename_i hn0
              obtain ⟨st, en, hst, hen, hse, hs0, hnv, hspan⟩ :=
                copyContent_success hcc hn0
              have hTag0 : s₀.Tag = s.Tag := by rw [hs0]
              have hMBA0 : s₀.MaxBytesApprox = s.MaxBytesApprox := by rw [hs0]
              have hmax0 : s₀.maxBytes = s.maxBytes := maxBytes_congr hMBA0
              have hbuf0 : s₀.buf.length < s.buf.length :=
                copyContent_buf_lt hcc hn0
              have hinv0 : BatchInv s₀ := by
                obtain ⟨elems, h1, h2, h3⟩ := hinv
                refine ⟨elems ++ [sliceGo s.buf st (en + s.Tag.length + 3)],
                  ?_, ?_, ?_⟩
                · intro e he
                  rw [hTag0]
                  rcases List.mem_append.mp he with he | he
                  · exact h1 e he
                  · rw [List.mem_singleton.mp he]; exact hspan
                · rw [hs0]
                  simp only [List.flatten_append]
                  rw [← h2]
                  simp
                · rw [List.dropLast_concat, hmax0, ← h2]
                  exact hblt
              have := ih s₀ dl ae s' adv t err (by omega) hinv0 h
              obtain ⟨⟨hT, hM⟩, hI, hTok, hB⟩ := this
              refine ⟨⟨by rw [hT, hTag0], by rw [hM, hMBA0]⟩, hI, ?_, hB⟩
              intro x hx
              have := hTok x hx
              rw [hmax0, hTag0] at this
              exact this
          | some e =>
            have he0 : s₀ = s ∧ n = 0 := copyContent_err hcc
            cases e with
            | openTagNotFound =>
              simp only at h
              obtain ⟨hs0, hn0⟩ := he0
              subst hs0
              have hTagp : (s₀.pruneBuf dl).Tag = s₀.Tag := pruneBuf_Tag s₀ dl
              have hMBAp : (s₀.pruneBuf dl).MaxBytesApprox = s₀.MaxBytesApprox :=
                pruneBuf_MBA s₀ dl
              have hmaxp : (s₀.pruneBuf dl).maxBytes = s₀.maxBytes :=
                maxBytes_congr hMBAp
              have hpinv : BatchInv (s₀.pruneBuf dl) :=
                BatchInv_transfer hTagp (pruneBuf_batch s₀ dl) hMBAp hinv
              have hplt : (s₀.pruneBuf dl).batch.length <
                  (s₀.pruneBuf dl).maxBytes := by
                rw [pruneBuf_batch, hmaxp]
                exact hblt
              have hpost := splitFinish_post h hpinv hplt
              obtain ⟨⟨hT, hM⟩, hI, hTok, hB⟩ := hpost
              refine ⟨⟨by rw [hT, hTagp], by rw [hM, hMBAp]⟩, hI, ?_, hB⟩
              intro x hx
              have := hTok x hx
              rw [hmaxp, hTagp] at this
              exact this
            | maxBufSizeExceeded =>
              simp only [Prod.mk.injEq] at h
              obtain ⟨hs', -, ht, -⟩ := h
              rw [← hs', he0.1]
              refine ⟨⟨rfl, rfl⟩, hinv, ?_, fun _ => hblt⟩
              intro x hx; rw [← ht] at hx; cases hx
            | garbledInput =>
              simp only [Prod.mk.injEq] at h
              obtain ⟨hs', -, ht, -⟩ := h
              rw [← hs', he0.1]
              refine ⟨⟨rfl, rfl⟩, hinv, ?_, fun _ => hblt⟩
              intro x hx; rw [← ht] at hx; cases hx
            | nestedTagsNotImplemented =>
              simp only [Prod.mk.injEq] at h
              obtain ⟨hs', -, ht, -⟩ := h
              rw [← hs', he0.1]
              refine ⟨⟨rfl, rfl⟩, hinv, ?_, fun _ => hblt⟩
              intro x hx; rw [← ht] at hx; cases hx

/-- Postcondition of a full `Split` call. -/
theorem Split_post {s : TagSplitter} {d : Parallel.Bytes} {ae : Bool}
    {s' : TagSplitter} {adv : Nat} {t : Option Parallel.Bytes}
    {err : Option SplitError}
    (h : s.Split d ae = (s', adv, t, err)) (hinv : BatchInv s) :
    (s'.Tag = s.Tag ∧ s'.MaxBytesApprox = s.MaxBytesApprox) ∧ BatchInv s' ∧
    (∀ x, t = some x → TokenOK s.maxBytes s.Tag x) := by
  unfold TagSplitter.Split at h
  split at h
  · simp only [Prod.mk.injEq] at h
    obtain ⟨hs', -, ht, -⟩ := h
    subst hs'
    refine ⟨⟨rfl, rfl⟩, hinv, ?_⟩
    intro x hx; rw [← ht] at hx; cases hx
  · split at h
    · simp only [Prod.mk.injEq] at h
      obtain ⟨hs', -, ht, -⟩ := h
      subst hs'
      refine ⟨⟨rfl, rfl⟩, hinv, ?_⟩
      intro x hx; rw [← ht] at hx; cases hx
    · have hinv1 : BatchInv { s with buf := s.buf ++ d } :=
        BatchInv_transfer rfl rfl rfl hinv
      have hpost := splitLoopF_post _ _ _ _ _ _ _ _
        (Nat.lt_succ_self _) hinv1 h
      obtain ⟨⟨hT, hM⟩, hI, hTok⟩ := hpost
      exact ⟨⟨hT, hM⟩, hI, fun x hx => hTok.1 x hx⟩

/-- Run-level postcondition: over any sequence of calls from a state whose
batch satisfies the invariant, every emitted token is a non-empty
concatenation of complete element spans with the approximate-size property. -/
theorem runSplitCalls_post (calls : List (Parallel.Bytes × Bool)) :
    ∀ (s : TagSplitter), BatchInv s →
      BatchInv (runSplitCalls s calls).1 ∧
      ∀ t ∈ (runSplitCalls s calls).2, TokenOK s.maxBytes s.Tag t := by
  induction calls with
  | nil =>
    intro s hinv
    exact ⟨hinv, by simp [runSplitCalls]⟩
  | cons c rest ih =>
    intro s hinv
    obtain ⟨d, ae⟩ := c
    rw [runSplitCalls]
    cases hsp : s.Split d ae with
    | mk s' r2 =>
      cases r2 with
      | mk adv r3 =>
        cases r3 with
        | mk t err =>
          simp only
          have hpost := Split_post hsp hinv
          obtain ⟨⟨hT, hM⟩, hI, hTok⟩ := hpost
          have hrest := ih s' hI
          refine ⟨hrest.1, ?_⟩
          intro x hx
          rcases List.mem_append.mp hx with hx | hx
          · cases t with
            | none => simp at hx
            | some y =>
              have : x = y := by simpa using hx
              subst this
              exact hTok x rfl
          · have := hrest.2 x hx
            rw [maxBytes_congr hM, hT] at this
            exact this

/-- With `atEOF = false`, the loop emits a token only when the staged batch
has reached `maxBytes`, so every such token is at least `maxBytes` long. -/
theorem splitLoopF_noneof_token_ge :
    ∀ (fuel : Nat) (s : TagSplitter) (dl : Nat) (s' : TagSplitter) (adv : Nat)
      (t : Parallel.Bytes) (err : Option SplitError),
      splitLoopF fuel s dl false = (s', adv, some t, err) →
      s.maxBytes ≤ t.length := by
  intro fuel
  induction fuel with
  | zero =>
    intro s dl s' adv t err h
    rw [splitLoopF] at h
    simp at h
  | succ f ih =>
    intro s dl s' adv t err h
    rw [splitLoopF] at h
    split at h
    · rename_i hge
      simp only [Prod.mk.injEq] at h
      obtain ⟨-, -, ht, -⟩ := h
      rw [← Option.some.injEq] at *
      have : s.batch = t := by
        cases ht; rfl
      rw [← this]
      exact hge
    · cases hcc : s.copyContent with
      | mk s₀ rest =>
        cases rest with
        | mk n cerr =>
          rw [hcc] at h
          cases cerr with
          | none =>
            simp only at h
            split at h
            · rw [splitFinish] at h
              simp at h
            · have hMBA := copyContent_tag s
              rw [hcc] at hMBA
              have hm : s₀.MaxBytesApprox = s.MaxBytesApprox := hMBA.2.1
              have := ih s₀ dl s' adv t err h
              rw [maxBytes_congr hm] at this
              exact this
          | some e =>
            cases e with
            | openTagNotFound =>
              simp only at h
              rw [splitFinish] at h
              simp at h
            | maxBufSizeExceeded => simp at h
            | garbledInput => simp at h
            | nestedTagsNotImplemented => simp at h

/-- **C4**: the tag splitter locates the opening tag at the least index where
either the exact form `<tag>` or the attribute form `<tag ` occurs (the
minimum of the two pattern indices), so it never matches a strict prefix of a
longer tag name; in particular on `"<aa>x</aa><a>y</a>"` with tag `a` the
emitted element bytes are exactly `"<a>y</a>"`. -/
theorem C4_opening_tag_least_and_prefix_safe :
    (∀ (s : TagSplitter) (data : Parallel.Bytes) (i : Nat),
      s.indexOpeningTag data = some i ↔
        ((openingTag1Of s.Tag).isPrefixOf (data.drop i) ∨
         (openingTag2Of s.Tag).isPrefixOf (data.drop i)) ∧
        (∀ j < i, ¬ (openingTag1Of s.Tag).isPrefixOf (data.drop j) ∧
                  ¬ (openingTag2Of s.Tag).isPrefixOf (data.drop j))) ∧
    (({ Tag := strBytes "a" } : TagSplitter).Split
        (strBytes "<aa>x</aa><a>y</a>") true).2.2.1 = some (strBytes "<a>y</a>") :=
  ⟨indexOpeningTag_eq_some_iff, by decide⟩

/-! ## Claim C2: pruning and bounded memory -/

theorem indexOpeningTag_none_iff (s : TagSplitter) (data : Parallel.Bytes) :
    s.indexOpeningTag data = none ↔
      Parallel.bytesIndex data (openingTag1Of s.Tag) = none ∧
      Parallel.bytesIndex data (openingTag2Of s.Tag) = none := by
  unfold TagSplitter.indexOpeningTag
  cases h1 : Parallel.bytesIndex data (openingTag1Of s.Tag) with
  | none =>
    cases h2 : Parallel.bytesIndex data (openingTag2Of s.Tag) with
    | none => simp
    | some v => simp
  | some u =>
    cases h2 : Parallel.bytesIndex data (openingTag2Of s.Tag) with
    | none => simp
    | some v =>
      simp only
      constructor
      · intro h
        split at h <;> cases h
      · rintro ⟨h, -⟩
        cases h

/-- Transfer of tag absence to an infix. -/
theorem indexOpeningTag_infix_none {s : TagSplitter} {big sub : Parallel.Bytes}
    (hinf : sub <:+: big) (h : s.indexOpeningTag big = none) :
    s.indexOpeningTag sub = none := by
  rw [indexOpeningTag_none_iff] at h ⊢
  exact ⟨Parallel.bytesIndex_infix_none hinf h.1,
         Parallel.bytesIndex_infix_none hinf h.2⟩

/-- One `Split` call on a buffer holding no opening tag: nothing is
extracted, the buffer is pruned exactly when it has reached
`max (2*len(data)) internalBufferPruneLimit` (keeping the trailing half) and
is otherwise left untouched; at EOF the splitter is marked done and any
staged batch is flushed. -/
theorem Split_noTag (s : TagSplitter) (data : Parallel.Bytes) (ae : Bool)
    (htag : s.Tag ≠ []) (hdone : s.done = false)
    (hbatch : s.batch.length < s.maxBytes)
    (hno : s.indexOpeningTag (s.buf ++ data) = none)
    (hcap : (s.buf ++ data).length ≤ maxBufSize) :
    s.Split data ae =
      ({ s with
          buf := if (s.buf ++ data).length <
                    max (2 * data.length) internalBufferPruneLimit
                 then s.buf ++ data
                 else (s.buf ++ data).drop ((s.buf ++ data).length / 2),
          done := ae },
       data.length,
       (if ae then (if s.batch.length = 0 then none else some s.batch)
        else none),
       none) := by
  rw [TagSplitter.Split, if_neg htag, if_neg (by simp [hdone])]
  rw [splitLoop_eq]
  rw [if_neg (by simpa [TagSplitter.maxBytes] using Nat.not_le.mpr hbatch)]
  have hcc : ({ s with buf := s.buf ++ data } : TagSplitter).copyContent =
      ({ s with buf := s.buf ++ data }, 0, some .openTagNotFound) := by
    unfold TagSplitter.copyContent
    rw [if_neg (by simpa using Nat.not_lt.mpr hcap)]
    rw [show ({ s with buf := s.buf ++ data } : TagSplitter).indexOpeningTag
        ({ s with buf := s.buf ++ data } : TagSplitter).buf = none from hno]
  have hprune : ({ s with buf := s.buf ++ data } : TagSplitter).pruneBuf
      data.length =
      { s with
        buf := if (s.buf ++ data).length <
                  max (2 * data.length) internalBufferPruneLimit
               then s.buf ++ data
               else (s.buf ++ data).drop ((s.buf ++ data).length / 2) } := by
    unfold TagSplitter.pruneBuf
    dsimp only
    split <;> rfl
  rw [hcc]
  show splitFinish (({ s with buf := s.buf ++ data } : TagSplitter).pruneBuf
      data.length) data.length ae = _
  rw [hprune]
  unfold splitFinish
  cases ae with
  | false =>
    simp only [Bool.false_eq_true, if_false]
    rw [hdone]
  | true =>
    simp only [if_true]
    split <;> rfl

/-- One `Split` call whose appended buffer exceeds the 1 GiB hard cap: the
call fails with `maxBufSizeExceeded`, the (un-pruned) buffer kept. -/
theorem Split_bufExceeded (s : TagSplitter) (data : Parallel.Bytes) (ae : Bool)
    (htag : s.Tag ≠ []) (hdone : s.done = false)
    (hbatch : s.batch.length < s.maxBytes)
    (hcap : maxBufSize < (s.buf ++ data).length) :
    s.Split data ae =
      ({ s with buf := s.buf ++ data }, data.length, none,
       some .maxBufSizeExceeded) := by
  rw [TagSplitter.Split, if_neg htag, if_neg (by simp [hdone])]
  rw [splitLoop_eq]
  rw [if_neg (by simpa [TagSplitter.maxBytes] using Nat.not_le.mpr hbatch)]
  have hcc : ({ s with buf := s.buf ++ data } : TagSplitter).copyContent =
      ({ s with buf := s.buf ++ data }, 0, some .maxBufSizeExceeded) := by
    unfold TagSplitter.copyContent
    rw [if_pos (by simpa using hcap)]
  rw [hcc]

/-- Unfolding one call of the run driver (placeholder marker). -/
theorem runSplitCalls_cons (s : TagSplitter) (d : Parallel.Bytes) (ae : Bool)
    (cs : List (Parallel.Bytes × Bool)) :
    runSplitCalls s ((d, ae) :: cs) =
      ((runSplitCalls (s.Split d ae).1 cs).1,
       ((s.Split d ae).2.2.1).toList ++ (runSplitCalls (s.Split d ae).1 cs).2) := by
  rw [runSplitCalls]

theorem indexOpeningTag_congr {s₁ s₂ : TagSplitter} (h : s₁.Tag = s₂.Tag)
    (d : Parallel.Bytes) : s₁.indexOpeningTag d = s₂.indexOpeningTag d := by
  unfold TagSplitter.indexOpeningTag
  rw [h]

/-- After end of stream, `Split` reports `io.EOF` and changes nothing. -/
theorem Split_done (s : TagSplitter) (data : Parallel.Bytes) (ae : Bool)
    (htag : s.Tag ≠ []) (hdone : s.done = true) :
    s.Split data ae = (s, data.length, none, some .eof) := by
  rw [TagSplitter.Split, if_neg htag, if_pos hdone]

/-- Bounded memory for tag-free runs: starting from a splitter whose buffer
is a suffix (infix, once done) of the input consumed so far and is below
`max (2*chunk) internalBufferPruneLimit`, feeding chunks of at most `chunk`
bytes whose accumulated bytes hold no opening tag keeps the buffer below that
limit after every call (provided `3*chunk` is within the 1 GiB cap, so the
hard-cap error path, which skips pruning, is never taken). -/
theorem c2_run_bound (tag : Parallel.Bytes) (chunk : Nat)
    (htag : tag ≠ []) (hcap3 : 3 * chunk ≤ maxBufSize) :
    ∀ (calls : List (Parallel.Bytes × Bool)) (s : TagSplitter)
      (acc : Parallel.Bytes),
      (∀ c ∈ calls, c.1.length ≤ chunk) →
      ({ Tag := tag } : TagSplitter).indexOpeningTag
        (acc ++ (calls.map Prod.fst).flatten) = none →
      s.Tag = tag → s.batch = [] →
      s.buf.length < max (2 * chunk) internalBufferPruneLimit →
      (s.done = false → ∃ k, k ≤ acc.length ∧ s.buf = acc.drop k) →
      (s.done = true → s.buf <:+: acc) →
      ∀ i, ((runSplitCalls s (calls.take i)).1).buf.length <
        max (2 * chunk) internalBufferPruneLimit := by
  intro calls
  induction calls with
  | nil =>
    intro s acc hch hno hTag hbatch hlen hsuf hinf i
    simpa [List.take_nil, runSplitCalls] using hlen
  | cons c rest ih =>
    obtain ⟨d, ae⟩ := c
    intro s acc hch hno hTag hbatch hlen hsuf hinf i
    have htag' : s.Tag ≠ [] := by rw [hTag]; exact htag
    have hd : d.length ≤ chunk := hch (d, ae) (List.mem_cons_self _ _)
    have hrest : ∀ c ∈ rest, c.1.length ≤ chunk :=
      fun c hc => hch c (List.mem_cons_of_mem _ hc)
    have hno2 : ({ Tag := tag } : TagSplitter).indexOpeningTag
        ((acc ++ d) ++ (rest.map Prod.fst).flatten) = none := by
      have : (acc ++ d) ++ (rest.map Prod.fst).flatten =
          acc ++ (((d, ae) :: rest).map Prod.fst).flatten := by
        simp [List.append_assoc]
      rw [this]
      exact hno
    cases i with
    | zero =>
      simpa [List.take_zero, runSplitCalls] using hlen
    | succ j =>
      rw [List.take_succ_cons, runSplitCalls_cons]
      dsimp only
      cases hdone : s.done with
      | true =>
        have hstep := Split_done s d ae htag' hdone
        refine ih ((s.Split d ae).1) (acc ++ d) hrest hno2 ?_ ?_ ?_ ?_ ?_ j
        · rw [hstep]; exact hTag
        · rw [hstep]; exact hbatch
        · rw [hstep]; exact hlen
        · rw [hstep]
          intro hfd
          have hsd : s.done = false := hfd
          exact absurd (hsd.symm.trans hdone) (by simp)
        · rw [hstep]
          intro _
          exact (hinf hdone).trans ⟨[], d, by simp⟩
      | false =>
        obtain ⟨k, hk, hbuf⟩ := hsuf hdone
        have hb'acc : s.buf ++ d = (acc ++ d).drop k := by
          rw [hbuf, List.drop_append_of_le_length hk]
        have hnoB : s.indexOpeningTag (s.buf ++ d) = none := by
          rw [indexOpeningTag_congr (show s.Tag = ({ Tag := tag } :
            TagSplitter).Tag from hTag)]
          refine indexOpeningTag_infix_none ?_ hno2
          rw [hb'acc]
          exact (List.drop_suffix _ _).isInfix.trans
            ⟨[], (rest.map Prod.fst).flatten, by simp⟩
        have hlb : (s.buf ++ d).length ≤ maxBufSize := by
          rw [List.length_append]
          have h1 : maxBufSize = 1073741824 := rfl
          have h2 : internalBufferPruneLimit = 16384 := rfl
          omega
        have hbp : s.batch.length < s.maxBytes := by
          rw [hbatch]
          exact maxBytes_pos s
        have hstep := Split_noTag s d ae htag' hdone hbp hnoB hlb
        refine ih ((s.Split d ae).1) (acc ++ d) hrest hno2 ?_ ?_ ?_ ?_ ?_ j
        · rw [hstep]; exact hTag
        · rw [hstep]; exact hbatch
        · rw [hstep]
          dsimp only
          have h2 : internalBufferPruneLimit = 16384 := rfl
          split
          · rename_i hLT
            rw [List.length_append] at hLT ⊢
            omega
          · rename_i hGE
            rw [List.length_drop, List.length_append]
            rw [List.length_append] at hGE
            omega
        · rw [hstep]
          dsimp only
          intro hae
          subst hae
          split
          · exact ⟨k, by rw [List.length_append]; omega, hb'acc⟩
          · refine ⟨k + (s.buf ++ d).length / 2, ?_, ?_⟩
            · have hk2 : (s.buf ++ d).length = acc.length + d.length - k := by
                rw [hb'acc, List.length_drop, List.length_append]
              have hacc : (acc ++ d).length = acc.length + d.length :=
                List.length_append _ _
              omega
            · generalize (s.buf ++ d).length / 2 = m
              rw [hb'acc, List.drop_drop]
        · rw [hstep]
          dsimp only
          intro hae
          subst hae
          split
          · rw [hb'acc]
            exact (List.drop_suffix _ _).isInfix
          · rw [hb'acc, List.drop_drop]
            exact (List.drop_suffix _ _).isInfix

theorem bytesIndex_replicate_ne (n : Nat) (b : Nat) (t : Parallel.Bytes)
    (hne : b ≠ 46) : Parallel.bytesIndex (List.replicate n 46) (b :: t) = none := by
  induction n with
  | zero => exact Parallel.bytesIndex_nil _ (by simp)
  | succ m ih =>
    rw [List.replicate_succ, Parallel.bytesIndex_cons]
    rw [if_neg (by simp [List.isPrefixOf, hne])]
    rw [ih]
    rfl

theorem indexOpeningTag_replicate97 (n : Nat) :
    ({ Tag := [97] } : TagSplitter).indexOpeningTag (List.replicate n 46) = none := by
  rw [indexOpeningTag_none_iff]
  exact ⟨bytesIndex_replicate_ne n 60 _ (by decide),
         bytesIndex_replicate_ne n 60 _ (by decide)⟩

/-- Three 1-GiB tag-free chunks drive the buffer to `3 * 2^30` bytes: the
first call accumulates (below the prune threshold `2*chunk`), the second and
third hit the hard-cap error path, which skips pruning. -/
theorem c2cex_run (w : Parallel.Bytes) (hlen : w.length = 1073741824)
    (hno : ({ Tag := [97] } : TagSplitter).indexOpeningTag (w ++ w ++ w) = none) :
    ((runSplitCalls { Tag := [97] } [(w, false), (w, false), (w, false)]).1).buf.length =
      3 * 1073741824 := by
  have hMB : maxBufSize = 1073741824 := rfl
  have hIB : internalBufferPruneLimit = 16384 := rfl
  have hs1 : (({ Tag := [97] } : TagSplitter).Split w false).1 =
      { Tag := [97], buf := [] ++ w } := by
    rw [Split_noTag ({ Tag := [97] } : TagSplitter) w false (by simp) rfl
      (by simpa using maxBytes_pos _)
      (by
        refine indexOpeningTag_infix_none ?_ hno
        rw [List.nil_append]
        exact ⟨[], w ++ w, by simp⟩)
      (by rw [List.nil_append, hlen, hMB])]
    dsimp only
    rw [if_pos (by rw [List.nil_append, hlen, hIB]; omega)]
  have hs2 : (({ Tag := [97], buf := [] ++ w } : TagSplitter).Split w false).1 =
      { Tag := [97], buf := ([] ++ w) ++ w } := by
    rw [Split_bufExceeded ({ Tag := [97], buf := [] ++ w } : TagSplitter)
      w false (by simp) rfl (by simpa using maxBytes_pos _)
      (by
        show maxBufSize < (([] ++ w) ++ w).length
        rw [List.length_append, List.length_append, List.length_nil, hlen, hMB]
        omega)]
  have hs3 : (({ Tag := [97], buf := ([] ++ w) ++ w } : TagSplitter).Split
      w false).1 = { Tag := [97], buf := (([] ++ w) ++ w) ++ w } := by
    rw [Split_bufExceeded ({ Tag := [97], buf := ([] ++ w) ++ w } : TagSplitter)
      w false (by simp) rfl (by simpa using maxBytes_pos _)
      (by
        show maxBufSize < ((([] ++ w) ++ w) ++ w).length
        rw [List.length_append, List.length_append, List.length_append,
          List.length_nil, hlen, hMB]
        omega)]
  have hrun : (runSplitCalls { Tag := [97] }
      [(w, false), (w, false), (w, false)]).1 =
      { Tag := [97], buf := (([] ++ w) ++ w) ++ w } := by
    rw [runSplitCalls_cons]
    dsimp only
    rw [hs1, runSplitCalls_cons]
    dsimp only
    rw [hs2, runSplitCalls_cons]
    dsimp only
    rw [hs3, runSplitCalls]
  rw [hrun]
  dsimp only
  rw [List.length_append, List.length_append, List.length_append,
    List.length_nil, hlen]

/-- **C2 (counterexample)**: with 1 GiB chunks (`chunk = 2^30`) of tag-free
noise, the hard-cap error path skips pruning, and after three calls the
scratch buffer reaches `max (2*chunk) internalBufferPruneLimit + chunk`
bytes, so the claimed bound fails for this chunk size. -/
theorem C2_counterexample :
    (∀ c ∈ c2Calls, c.1.length ≤ 1073741824) ∧
    ({ Tag := [97] } : TagSplitter).indexOpeningTag
      ((c2Calls.map Prod.fst).flatten) = none ∧
    ¬ ((runSplitCalls { Tag := [97] } c2Calls).1.buf.length <
        max (2 * 1073741824) internalBufferPruneLimit + 1073741824) := by
  have hN : c2Noise.length = 1073741824 := by
    rw [c2Noise, List.length_replicate]
  have hIB : internalBufferPruneLimit = 16384 := rfl
  have h3 : (3 : Nat) * 1073741824 =
      1073741824 + (1073741824 + 1073741824) := by norm_num
  refine ⟨?_, ?_, ?_⟩
  · intro c hc
    rw [c2Calls] at hc
    simp only [List.mem_cons, List.not_mem_nil, or_false] at hc
    rcases hc with rfl | rfl | rfl
    · exact hN.le
    · exact hN.le
    · exact hN.le
  · have hflat : (c2Calls.map Prod.fst).flatten =
        List.replicate (3 * 1073741824) 46 := by
      show c2Noise ++ (c2Noise ++ (c2Noise ++ [])) = _
      rw [h3, List.append_nil, c2Noise, ← List.replicate_add,
        ← List.replicate_add]
    rw [hflat]
    exact indexOpeningTag_replicate97 _
  · have hno : ({ Tag := [97] } : TagSplitter).indexOpeningTag
        (c2Noise ++ c2Noise ++ c2Noise) = none := by
      have htr : c2Noise ++ c2Noise ++ c2Noise =
          List.replicate (3 * 1073741824) 46 := by
        rw [h3, c2Noise, ← List.replicate_add, ← List.replicate_add]
      rw [htr]
      exact indexOpeningTag_replicate97 _
    have := c2cex_run c2Noise hN hno
    rw [show c2Calls = [(c2Noise, false), (c2Noise, false), (c2Noise, false)]
      from rfl]
    rw [this]
    rw [hIB]
    omega

/-- **C2 (amended)**: pruning replaces the buffer by its trailing half exactly
when its length is at least `max (2*chunk_size) internalBufferPruneLimit` and
no opening tag was found, and otherwise leaves the buffer untouched; and for
every sequence of `Split` calls with chunks of at most `chunk` bytes whose
accumulated input contains no opening tag of the target, *provided*
`3*chunk` stays within the 1 GiB hard cap (the counterexample shows the
bound fails for larger chunks, whose error path skips pruning), the scratch
buffer stays below `max (2*chunk) internalBufferPruneLimit` after every call
— in particular below `max (2*chunk) internalBufferPruneLimit + chunk` at
all times. -/
theorem C2_pruning_and_bounded_memory :
    (∀ (s : TagSplitter) (data : Parallel.Bytes) (ae : Bool),
      s.Tag ≠ [] → s.done = false → s.batch.length < s.maxBytes →
      s.indexOpeningTag (s.buf ++ data) = none →
      (s.buf ++ data).length ≤ maxBufSize →
      ((s.Split data ae).1).buf =
        (if (s.buf ++ data).length <
              max (2 * data.length) internalBufferPruneLimit
         then s.buf ++ data
         else (s.buf ++ data).drop ((s.buf ++ data).length / 2))) ∧
    (∀ (tag : Parallel.Bytes) (mba chunk : Nat)
        (calls : List (Parallel.Bytes × Bool)),
      tag ≠ [] → 3 * chunk ≤ maxBufSize →
      (∀ c ∈ calls, c.1.length ≤ chunk) →
      ({ Tag := tag } : TagSplitter).indexOpeningTag
        ((calls.map Prod.fst).flatten) = none →
      ∀ i, ((runSplitCalls { Tag := tag, MaxBytesApprox := mba }
          (calls.take i)).1).buf.length <
        max (2 * chunk) internalBufferPruneLimit) := by
  constructor
  · intro s data ae htag hdone hbatch hno hcap
    rw [Split_noTag s data ae htag hdone hbatch hno hcap]
  · intro tag mba chunk calls htag hcap3 hch hno i
    refine c2_run_bound tag chunk htag hcap3 calls
      { Tag := tag, MaxBytesApprox := mba } [] hch ?_ rfl rfl ?_ ?_ ?_ i
    · rw [List.nil_append]
      exact hno
    · have : internalBufferPruneLimit = 16384 := rfl
      simp only [List.length_nil]
      omega
    · intro _
      exact ⟨0, by simp⟩
    · intro h
      cases h

/-! ## Claim C3: batch shape invariant -/

/-- **C3**: every token emitted by `TagSplitter.Split` is a concatenation of
one or more complete element spans (at least one element per token), with the
part before the final element below `maxBytes` (so a token may exceed the
bound only by the final element that crossed it); a token is emitted as soon
as the staged batch reaches `maxBytes` (any token emitted before end of
stream is at least `maxBytes` long, and a batch that starts below the bound
stays below it whenever no token is returned); `maxBytes` defaults to
16777216 when `MaxBytesApprox` is unset (zero). -/
theorem C3_batch_shape :
    (∀ s : TagSplitter, s.MaxBytesApprox = 0 → s.maxBytes = 16777216) ∧
    (∀ (tag : Parallel.Bytes) (mba : Nat) (calls : List (Parallel.Bytes × Bool)),
      ∀ t ∈ (runSplitCalls { Tag := tag, MaxBytesApprox := mba } calls).2,
        TokenOK ({ Tag := tag, MaxBytesApprox := mba } : TagSplitter).maxBytes
          tag t) ∧
    (∀ (s : TagSplitter) (d : Parallel.Bytes) (s' : TagSplitter) (adv : Nat)
        (t : Parallel.Bytes) (err : Option SplitError),
      s.Split d false = (s', adv, some t, err) → s.maxBytes ≤ t.length) ∧
    (∀ (s : TagSplitter) (d : Parallel.Bytes) (ae : Bool) (s' : TagSplitter)
        (adv : Nat) (err : Option SplitError),
      BatchInv s → s.batch.length < s.maxBytes →
      s.Split d ae = (s', adv, none, err) →
        s'.batch.length < s'.maxBytes) := by
  refine ⟨?_, ?_, ?_, ?_⟩
  · intro s h
    unfold TagSplitter.maxBytes
    rw [if_pos h]
    rfl
  · intro tag mba calls
    have hinv : BatchInv ({ Tag := tag, MaxBytesApprox := mba } : TagSplitter) :=
      ⟨[], by simp, by simp, by simpa using maxBytes_pos _⟩
    exact (runSplitCalls_post calls _ hinv).2
  · intro s d s' adv t err h
    unfold TagSplitter.Split at h
    split at h
    · simp at h
    · split at h
      · simp at h
      · unfold splitLoop at h
        have := splitLoopF_noneof_token_ge _ { s with buf := s.buf ++ d } _ _ _ _ _ h
        exact this
  · intro s d ae s' adv err hinv hlt h
    unfold TagSplitter.Split at h
    split at h
    · simp only [Prod.mk.injEq] at h
      obtain ⟨hs', -, -, -⟩ := h
      subst hs'
      exact hlt
    · split at h
      · simp only [Prod.mk.injEq] at h
        obtain ⟨hs', -, -, -⟩ := h
        subst hs'
        exact hlt
      · have hinv1 : BatchInv { s with buf := s.buf ++ d } :=
          BatchInv_transfer rfl rfl rfl hinv
        have hpost := splitLoopF_post _ _ _ _ _ _ _ _
          (Nat.lt_succ_self _) hinv1 h
        exact hpost.2.2.2 rfl

/-! ### Canonical extraction: basic properties -/

theorem indexOpeningTag_nil (s : TagSplitter) : s.indexOpeningTag [] = none := by
  unfold TagSplitter.indexOpeningTag
  rw [Parallel.bytesIndex_nil _ (by simp [openingTag1Of]),
      Parallel.bytesIndex_nil _ (by simp [openingTag2Of])]

/-- Any fuel exceeding the sequence length gives the same extraction. -/
theorem canonF_congr :
    ∀ fuel₁ fuel₂ (tag v : Parallel.Bytes),
      v.length < fuel₁ → v.length < fuel₂ →
      canonF fuel₁ tag v = canonF fuel₂ tag v := by
  intro fuel₁
  induction fuel₁ with
  | zero => intro fuel₂ tag v h₁ h₂; omega
  | succ f ih =>
    intro fuel₂ tag v h₁ h₂
    cases fuel₂ with
    | zero => omega
    | succ g =>
      simp only [canonF]
      cases hp : TagSplitter.indexOpeningTag { Tag := tag } v with
      | none => rfl
      | some p =>
        dsimp only
        cases he : Parallel.bytesIndex (v.drop p) (closingTagOf tag) with
        | none => rfl
        | some e =>
          dsimp only
          have hle := Parallel.bytesIndex_some_le he
          rw [closingTag_length, List.length_drop] at hle
          have hlen : (v.drop (p + e + tag.length + 3)).length < v.length := by
            rw [List.length_drop]; omega
          rw [ih g tag _ (by omega) (by omega)]

/-- The canonical extraction unfolds one step at a time. -/
theorem canon_eq (tag v : Parallel.Bytes) :
    canon tag v =
      match TagSplitter.indexOpeningTag { Tag := tag } v with
      | none => ([], v)
      | some p =>
        match Parallel.bytesIndex (v.drop p) (closingTagOf tag) with
        | none => ([], v)
        | some e =>
          let r := canon tag (v.drop (p + e + tag.length + 3))
          (sliceGo v p (p + e + tag.length + 3) :: r.1, r.2) := by
  unfold canon
  conv_lhs => rw [canonF]
  cases hp : TagSplitter.indexOpeningTag { Tag := tag } v with
  | none => rfl
  | some p =>
    dsimp only
    cases he : Parallel.bytesIndex (v.drop p) (closingTagOf tag) with
    | none => rfl
    | some e =>
      dsimp only
      have hle := Parallel.bytesIndex_some_le he
      rw [closingTag_length, List.length_drop] at hle
      have hlen : (v.drop (p + e + tag.length + 3)).length < v.length := by
        rw [List.length_drop]; omega
      rw [canonF_congr v.length ((v.drop (p + e + tag.length + 3)).length + 1)
        tag _ (by omega) (by omega)]

theorem canon_nil (tag : Parallel.Bytes) : canon tag [] = ([], []) := by
  rw [canon_eq, indexOpeningTag_nil]

/-- No opening tag: the canonical extraction yields nothing. -/
theorem canon_noOpen {tag v : Parallel.Bytes}
    (h : TagSplitter.indexOpeningTag { Tag := tag } v = none) :
    canon tag v = ([], v) := by
  rw [canon_eq, h]

/-- No closing tag anywhere: the canonical extraction yields nothing. -/
theorem canon_noClose {tag v : Parallel.Bytes}
    (h : Parallel.bytesIndex v (closingTagOf tag) = none) :
    canon tag v = ([], v) := by
  rw [canon_eq]
  cases hp : TagSplitter.indexOpeningTag { Tag := tag } v with
  | none => rfl
  | some p =>
    dsimp only
    rw [Parallel.bytesIndex_drop_none p h]

/-- An opening-tag occurrence lies wholly inside the data. -/
theorem indexOpeningTag_some_le {s : TagSplitter} {d : Parallel.Bytes} {i : Nat}
    (h : s.indexOpeningTag d = some i) : i + s.Tag.length + 2 ≤ d.length := by
  obtain ⟨hocc, -⟩ := (indexOpeningTag_eq_some_iff s d i).mp h
  rcases hocc with hp | hp
  · have := (List.isPrefixOf_iff_prefix.mp hp).length_le
    rw [openingTag1_length, List.length_drop] at this
    have hid : i ≤ d.length := by
      by_contra hc
      rw [List.drop_eq_nil_of_le (by omega)] at hp
      have := (List.isPrefixOf_iff_prefix.mp hp).length_le
      rw [openingTag1_length] at this
      simp at this
    omega
  · have := (List.isPrefixOf_iff_prefix.mp hp).length_le
    rw [openingTag2_length, List.length_drop] at this
    have hid : i ≤ d.length := by
      by_contra hc
      rw [List.drop_eq_nil_of_le (by omega)] at hp
      have := (List.isPrefixOf_iff_prefix.mp hp).length_le
      rw [openingTag2_length] at this
      simp at this
    omega

/-- An opening-tag occurrence wholly inside the data survives appending. -/
theorem indexOpeningTag_append_of_some {s : TagSplitter} {d x : Parallel.Bytes}
    {i : Nat} (h : s.indexOpeningTag d = some i) :
    s.indexOpeningTag (d ++ x) = some i := by
  have hfit := indexOpeningTag_some_le h
  obtain ⟨hocc, hleast⟩ := (indexOpeningTag_eq_some_iff s d i).mp h
  rw [indexOpeningTag_eq_some_iff]
  have hid : i ≤ d.length := by omega
  constructor
  · rw [List.drop_append_of_le_length hid]
    rcases hocc with hp | hp
    · exact Or.inl (List.isPrefixOf_iff_prefix.mpr
        ((List.isPrefixOf_iff_prefix.mp hp).trans (List.prefix_append _ _)))
    · exact Or.inr (List.isPrefixOf_iff_prefix.mpr
        ((List.isPrefixOf_iff_prefix.mp hp).trans (List.prefix_append _ _)))
  · intro j hj
    have hjd : j ≤ d.length := by omega
    rw [List.drop_append_of_le_length hjd]
    have hfit1 : (openingTag1Of s.Tag).length ≤ (d.drop j).length := by
      rw [openingTag1_length, List.length_drop]; omega
    have hfit2 : (openingTag2Of s.Tag).length ≤ (d.drop j).length := by
      rw [openingTag2_length, List.length_drop]; omega
    exact ⟨fun hp => (hleast j hj).1 (Parallel.isPrefixOf_append_left hp hfit1),
           fun hp => (hleast j hj).2 (Parallel.isPrefixOf_append_left hp hfit2)⟩

/-- One canonical extraction step, given the two located tags. -/
theorem canon_step {tag v : Parallel.Bytes} {p e : Nat}
    (hp : TagSplitter.indexOpeningTag { Tag := tag } v = some p)
    (he : Parallel.bytesIndex (v.drop p) (closingTagOf tag) = some e) :
    canon tag v =
      (sliceGo v p (p + e + tag.length + 3) ::
        (canon tag (v.drop (p + e + tag.length + 3))).1,
       (canon tag (v.drop (p + e + tag.length + 3))).2) := by
  rw [canon_eq, hp]
  dsimp only
  rw [he]

/-- A Go slice re-based after dropping a prefix. -/
theorem sliceGo_drop (v : Parallel.Bytes) (k a b : Nat) (hk : k ≤ a)
    (hab : a ≤ b) :
    sliceGo (v.drop k) (a - k) (b - k) = sliceGo v a b := by
  rw [sliceGo, sliceGo, List.drop_take, List.drop_take, List.drop_drop]
  rw [show b - k - (a - k) = b - a from by omega,
      show k + (a - k) = a from by omega]

/-- A Go slice inside the left part of an append. -/
theorem sliceGo_append (v x : Parallel.Bytes) (a b : Nat) (hb : b ≤ v.length) :
    sliceGo (v ++ x) a b = sliceGo v a b := by
  rw [sliceGo, sliceGo, List.take_append_of_le_length hb]

/-- An opening-tag occurrence inside `w` survives appending on the right. -/
theorem openOccAt_append {tag w x : Parallel.Bytes} {j : Nat}
    (hj : j ≤ w.length) (h : openOccAt tag w j) : openOccAt tag (w ++ x) j := by
  rw [openOccAt] at h ⊢
  rw [List.drop_append_of_le_length hj]
  rcases h with hp | hp
  · exact Or.inl (List.isPrefixOf_iff_prefix.mpr
      ((List.isPrefixOf_iff_prefix.mp hp).trans (List.prefix_append _ _)))
  · exact Or.inr (List.isPrefixOf_iff_prefix.mpr
      ((List.isPrefixOf_iff_prefix.mp hp).trans (List.prefix_append _ _)))

/-- An opening-tag occurrence in an append that fits in the left part. -/
theorem openOccAt_of_append {tag w x : Parallel.Bytes} {j : Nat}
    (hfit : j + tag.length + 2 ≤ w.length) (h : openOccAt tag (w ++ x) j) :
    openOccAt tag w j := by
  rw [openOccAt] at h ⊢
  rw [List.drop_append_of_le_length (by omega : j ≤ w.length)] at h
  have hfit1 : (openingTag1Of tag).length ≤ (w.drop j).length := by
    rw [openingTag1_length, List.length_drop]; omega
  have hfit2 : (openingTag2Of tag).length ≤ (w.drop j).length := by
    rw [openingTag2_length, List.length_drop]; omega
  rcases h with hp | hp
  · exact Or.inl (Parallel.isPrefixOf_append_left hp hfit1)
  · exact Or.inr (Parallel.isPrefixOf_append_left hp hfit2)

/-- If there is no opening tag in `d`, no position of `d` carries one. -/
theorem indexOpeningTag_none_occ {s : TagSplitter} {d : Parallel.Bytes}
    (h : s.indexOpeningTag d = none) : ∀ j, ¬ openOccAt s.Tag d j := by
  rw [indexOpeningTag_none_iff] at h
  intro j hj
  rcases hj with hp | hp
  · exact Parallel.bytesIndex_none_forall h.1 j hp
  · exact Parallel.bytesIndex_none_forall h.2 j hp

/-- Re-based opening-tag search after dropping a safe prefix. -/
theorem indexOpeningTag_drop {s : TagSplitter} {d : Parallel.Bytes} {p k : Nat}
    (hp : s.indexOpeningTag d = some p) (hk : k ≤ p) :
    s.indexOpeningTag (d.drop k) = some (p - k) := by
  obtain ⟨hocc, hleast⟩ := (indexOpeningTag_eq_some_iff s d p).mp hp
  rw [indexOpeningTag_eq_some_iff]
  constructor
  · rw [List.drop_drop, show k + (p - k) = p from by omega]
    exact hocc
  · intro j hj
    rw [List.drop_drop]
    exact hleast (k + j) (by omega)

/-- The first located opening position is least among `openOccAt` positions. -/
theorem indexOpeningTag_some_ge {s : TagSplitter} {d : Parallel.Bytes}
    {p k : Nat} (hp : s.indexOpeningTag d = some p)
    (hsafe : ∀ j < k, ¬ openOccAt s.Tag d j) : k ≤ p := by
  by_contra hc
  obtain ⟨hocc, -⟩ := (indexOpeningTag_eq_some_iff s d p).mp hp
  exact hsafe p (by omega) hocc

/-- Canonical extraction after dropping a prefix free of opening tags: the
extracted elements are unchanged; the remainder is unchanged as well unless
nothing is extracted at all (in which case both remainders are the inputs). -/
theorem canon_drop {tag v : Parallel.Bytes} {k : Nat} (hk : k ≤ v.length)
    (hsafe : ∀ j < k, ¬ openOccAt tag v j) :
    (canon tag (v.drop k)).1 = (canon tag v).1 ∧
    ((canon tag (v.drop k)).2 = (canon tag v).2 ∨
     ((canon tag v).1 = [] ∧ (canon tag v).2 = v ∧
      (canon tag (v.drop k)).2 = v.drop k)) := by
  cases hp : TagSplitter.indexOpeningTag { Tag := tag } v with
  | none =>
    have hpd : TagSplitter.indexOpeningTag { Tag := tag } (v.drop k) = none :=
      indexOpeningTag_infix_none (List.drop_suffix k v).isInfix hp
    rw [canon_noOpen hp, canon_noOpen hpd]
    exact ⟨rfl, Or.inr ⟨rfl, rfl, rfl⟩⟩
  | some p =>
    have hkp : k ≤ p := indexOpeningTag_some_ge hp hsafe
    have hpd : TagSplitter.indexOpeningTag { Tag := tag } (v.drop k) =
        some (p - k) := indexOpeningTag_drop hp hkp
    have hdd : (v.drop k).drop (p - k) = v.drop p := by
      rw [List.drop_drop, show k + (p - k) = p from by omega]
    cases he : Parallel.bytesIndex (v.drop p) (closingTagOf tag) with
    | none =>
      have hv : canon tag v = ([], v) := by
        rw [canon_eq, hp]
        dsimp only
        rw [he]
      have hvd : canon tag (v.drop k) = ([], v.drop k) := by
        rw [canon_eq, hpd]
        dsimp only
        rw [hdd, he]
      rw [hv, hvd]
      exact ⟨rfl, Or.inr ⟨rfl, rfl, rfl⟩⟩
    | some e =>
      have hed : Parallel.bytesIndex ((v.drop k).drop (p - k))
          (closingTagOf tag) = some e := by rw [hdd]; exact he
      have h1 := canon_step hp he
      have h2 := canon_step hpd hed
      have harg : (v.drop k).drop (p - k + e + tag.length + 3) =
          v.drop (p + e + tag.length + 3) := by
        rw [List.drop_drop, show k + (p - k + e + tag.length + 3) =
          p + e + tag.length + 3 from by omega]
      have hsl : sliceGo (v.drop k) (p - k) (p - k + e + tag.length + 3) =
          sliceGo v p (p + e + tag.length + 3) := by
        have := sliceGo_drop v k p (p + e + tag.length + 3) hkp (by omega)
        rw [show p + e + tag.length + 3 - k = p - k + e + tag.length + 3
          from by omega] at this
        exact this
      rw [h1, h2, harg, hsl]
      exact ⟨rfl, Or.inl rfl⟩

/-- Canonical extraction distributes over append: the elements of `v ++ x`
are those of `v` followed by those of the remainder of `v` glued to `x`. -/
theorem canon_append (tag : Parallel.Bytes) :
    ∀ (n : Nat) (v x : Parallel.Bytes), v.length ≤ n →
      (canon tag (v ++ x)).1 =
        (canon tag v).1 ++ (canon tag ((canon tag v).2 ++ x)).1 ∧
      (canon tag (v ++ x)).2 = (canon tag ((canon tag v).2 ++ x)).2 := by
  intro n
  induction n with
  | zero =>
    intro v x hv
    have : v = [] := List.length_eq_zero.mp (by omega)
    subst this
    rw [canon_nil]
    simp
  | succ m ih =>
    intro v x hv
    cases hp : TagSplitter.indexOpeningTag { Tag := tag } v with
    | none =>
      rw [canon_noOpen hp]
      simp
    | some p =>
      cases he : Parallel.bytesIndex (v.drop p) (closingTagOf tag) with
      | none =>
        have hvv : canon tag v = ([], v) := by
          rw [canon_eq, hp]
          dsimp only
          rw [he]
        rw [hvv]
        simp
      | some e =>
        have hfit := indexOpeningTag_some_le hp
        have hle := Parallel.bytesIndex_some_le he
        rw [closingTag_length, List.length_drop] at hle
        have hlast : p + e + tag.length + 3 ≤ v.length := by omega
        have hpx : TagSplitter.indexOpeningTag { Tag := tag } (v ++ x) =
            some p := indexOpeningTag_append_of_some hp
        have hdx : (v ++ x).drop p = v.drop p ++ x :=
          List.drop_append_of_le_length (by omega)
        have hex : Parallel.bytesIndex ((v ++ x).drop p) (closingTagOf tag) =
            some e := by rw [hdx]; exact Parallel.bytesIndex_append_of_some he
        have h1 := canon_step hp he
        have h2 := canon_step hpx hex
        have hsl : sliceGo (v ++ x) p (p + e + tag.length + 3) =
            sliceGo v p (p + e + tag.length + 3) :=
          sliceGo_append v x _ _ hlast
        have harg : (v ++ x).drop (p + e + tag.length + 3) =
            v.drop (p + e + tag.length + 3) ++ x :=
          List.drop_append_of_le_length hlast
        have hrec : (v.drop (p + e + tag.length + 3)).length ≤ m := by
          rw [List.length_drop]; omega
        obtain ⟨ih1, ih2⟩ := ih (v.drop (p + e + tag.length + 3)) x hrec
        constructor
        · rw [h2, h1, hsl, harg]
          dsimp only
          rw [ih1, List.cons_append]
        · rw [h2, h1, harg]
          dsimp only
          rw [ih2]

/-- A successful extraction step is exactly one canonical step: the batch
absorbs the head canonical element and the remainder is unchanged. -/
theorem copyContent_canon {s s' : TagSplitter} {n : Nat}
    (h : s.copyContent = (s', n, none)) (hn : n ≠ 0) :
    s.batch ++ (canon s.Tag s.buf).1.flatten =
      s'.batch ++ (canon s.Tag s'.buf).1.flatten ∧
    (canon s.Tag s.buf).2 = (canon s.Tag s'.buf).2 := by
  obtain ⟨st, en, hst, hen, hse, hs', hn', hspan⟩ := copyContent_success h hn
  have hp : TagSplitter.indexOpeningTag { Tag := s.Tag } s.buf = some st := by
    rw [indexOpeningTag_tagOnly]; exact hst
  have he : Parallel.bytesIndex (s.buf.drop st) (closingTagOf s.Tag) =
      some (en - st) := by
    rw [Parallel.bytesIndex_eq_some_iff]
    constructor
    · rw [List.drop_drop, show st + (en - st) = en from by omega]
      exact Parallel.bytesIndex_prefix_of_some hen
    · intro j hj
      rw [List.drop_drop]
      exact Parallel.bytesIndex_some_least hen (st + j) (by omega)
  have hstep := canon_step hp he
  rw [show st + (en - st) + s.Tag.length + 3 = en + s.Tag.length + 3
    from by omega] at hstep
  subst hs'
  rw [hstep]
  exact ⟨by simp, rfl⟩

/-- `copyContent` finding no opening tag: no canonical content either. -/
theorem copyContent_noOpen {s s' : TagSplitter} {n : Nat}
    (h : s.copyContent = (s', n, some CopyErr.openTagNotFound)) :
    s.indexOpeningTag s.buf = none ∧ canon s.Tag s.buf = ([], s.buf) := by
  unfold TagSplitter.copyContent at h
  split at h
  · simp at h
  · split at h
    · rename_i hno
      refine ⟨hno, canon_noOpen ?_⟩
      rw [indexOpeningTag_tagOnly]; exact hno
    · split at h
      · simp at h
      · split at h
        · simp at h
        · split at h
          · simp at h
          · simp at h

/-- `copyContent` returning zero bytes without error: no closing tag exists
anywhere in the buffer, so there is no canonical content. -/
theorem copyContent_stuck {s s' : TagSplitter}
    (h : s.copyContent = (s', 0, none)) :
    canon s.Tag s.buf = ([], s.buf) := by
  unfold TagSplitter.copyContent at h
  split at h
  · simp at h
  · split at h
    · simp at h
    · rename_i st hst
      split at h
      · rename_i hen
        exact canon_noClose hen
      · rename_i en hen
        split at h
        · simp at h
        · split at h
          · simp at h
          · simp only [Prod.mk.injEq] at h
            obtain ⟨-, hzero, -⟩ := h
            omega

/-- Pruning a buffer that holds no opening tag: the canonical content stays
empty, the kept part is a suffix, and (for tags of length at most 8190) no
opening-tag occurrence of any future extension can start inside the dropped
prefix. -/
theorem pruneBuf_safe {s : TagSplitter} {dl : Nat}
    (hol : s.Tag.length ≤ 8190)
    (hno : s.indexOpeningTag s.buf = none) :
    canon s.Tag (s.pruneBuf dl).buf = ([], (s.pruneBuf dl).buf) ∧
    ∃ k, k ≤ s.buf.length ∧ (s.pruneBuf dl).buf = s.buf.drop k ∧
      ∀ (x : Parallel.Bytes) (j : Nat), j < k →
        ¬ openOccAt s.Tag (s.buf ++ x) j := by
  unfold TagSplitter.pruneBuf
  dsimp only
  split
  · refine ⟨canon_noOpen (by rw [indexOpeningTag_tagOnly]; exact hno),
      0, by omega, ?_, ?_⟩
    · rw [List.drop_zero]
    · intro x j hj; omega
  · rename_i hbig
    rw [Nat.not_lt] at hbig
    have hlen : internalBufferPruneLimit ≤ s.buf.length := by
      have := le_max_right (2 * dl) internalBufferPruneLimit
      omega
    rw [internalBufferPruneLimit] at hlen
    constructor
    · have hno' : TagSplitter.indexOpeningTag { Tag := s.Tag } s.buf = none := by
        rw [indexOpeningTag_tagOnly]; exact hno
      exact canon_noOpen (indexOpeningTag_infix_none
        (List.drop_suffix (s.buf.length / 2) s.buf).isInfix hno')
    · refine ⟨s.buf.length / 2, by omega, rfl, ?_⟩
      intro x j hj hocc
      by_cases hfit : j + s.Tag.length + 2 ≤ s.buf.length
      · exact indexOpeningTag_none_occ hno j (openOccAt_of_append hfit hocc)
      · omega

/-- Inversion of `splitFinish`: the buffer is untouched, `done` is entered
exactly at EOF, and the token accounts for the batch. -/
theorem splitFinish_inv {q s' : TagSplitter} {dl : Nat} {ae : Bool}
    {adv : Nat} {t : Option Parallel.Bytes} {err : Option SplitError}
    (h : splitFinish q dl ae = (s', adv, t, err)) :
    s'.Tag = q.Tag ∧ s'.MaxBytesApprox = q.MaxBytesApprox ∧
    s'.buf = q.buf ∧ s'.batch = q.batch ∧ s'.done = (ae || q.done) ∧
    t.toList.flatten ++ (if ae = true then [] else q.batch) = q.batch ∧
    (ae = false → t = none) := by
  unfold splitFinish at h
  split at h
  · rename_i hae
    subst hae
    split at h
    · rename_i hb0
      simp only [Prod.mk.injEq] at h
      obtain ⟨hs', -, ht, -⟩ := h
      subst hs'
      refine ⟨rfl, rfl, rfl, rfl, rfl, ?_, ?_⟩
      · rw [← ht]
        simp [List.length_eq_zero.mp hb0]
      · intro hfa; cases hfa
    · simp only [Prod.mk.injEq] at h
      obtain ⟨hs', -, ht, -⟩ := h
      subst hs'
      refine ⟨rfl, rfl, rfl, rfl, rfl, ?_, ?_⟩
      · rw [← ht]
        simp
      · intro hfa; cases hfa
  · rename_i hae
    have hae' : ae = false := by
      cases ae
      · rfl
      · exact absurd rfl hae
    subst hae'
    simp only [Prod.mk.injEq] at h
    obtain ⟨hs', -, ht, -⟩ := h
    subst hs'
    exact ⟨rfl, rfl, rfl, rfl, rfl, by rw [← ht]; simp, fun _ => ht.symm⟩

/-- Canonical accounting across the `Split` loop, for error-free outcomes:
emitted token plus live batch plus canonical buffer content are conserved;
the canonical remainder only loses a future-proof-safe prefix; `done` is
entered only at EOF and only with the canonical buffer content exhausted;
and a token leaving the splitter live shrinks the buffer or retires a full
batch. -/
theorem splitLoopF_canon :
    ∀ (fuel : Nat) (s : TagSplitter) (dl : Nat) (ae : Bool)
      (s' : TagSplitter) (adv : Nat) (t : Option Parallel.Bytes),
      splitLoopF fuel s dl ae = (s', adv, t, none) →
      s.buf.length < fuel →
      s.Tag.length ≤ 8190 →
      s.done = false →
      s'.Tag = s.Tag ∧ s'.MaxBytesApprox = s.MaxBytesApprox ∧
      (ae = false → s'.done = false) ∧
      (s'.done = true → (canon s.Tag s'.buf).1 = []) ∧
      (ae = true → t = none → s'.done = true) ∧
      (t.toList.flatten ++ (if s'.done = true then [] else s'.batch) ++
          (canon s.Tag s'.buf).1.flatten =
        s.batch ++ (canon s.Tag s.buf).1.flatten) ∧
      (∃ k, k ≤ (canon s.Tag s.buf).2.length ∧
        (canon s.Tag s'.buf).2 = (canon s.Tag s.buf).2.drop k ∧
        ∀ (x : Parallel.Bytes) (j : Nat), j < k →
          ¬ openOccAt s.Tag ((canon s.Tag s.buf).2 ++ x) j) ∧
      (t.isSome = true → s'.done = false →
        s'.buf.length < s.buf.length ∨
        (s'.buf = s.buf ∧ s'.batch = [] ∧ s.maxBytes ≤ s.batch.length)) := by
  intro fuel
  induction fuel with
  | zero => intro s dl ae s' adv t h hf; omega
  | succ f ih =>
    intro s dl ae s' adv t h hf hol hdone
    rw [splitLoopF] at h
    split at h
    · -- batch already at the bound: emit it, buffer untouched
      rename_i hge
      simp only [Prod.mk.injEq] at h
      obtain ⟨hs', -, ht, -⟩ := h
      subst hs'
      have hsd : ({ s with batch := [] } : TagSplitter).done = s.done := rfl
      refine ⟨rfl, rfl, fun _ => by rw [hsd]; exact hdone, ?_, ?_, ?_,
        ⟨0, by omega, by simp, ?_⟩, ?_⟩
      · intro hd; rw [hsd, hdone] at hd; cases hd
      · intro _ hn; rw [← ht] at hn; cases hn
      · rw [← ht, hsd, hdone]
        simp
      · intro x j hj; omega
      · intro _ _
        exact Or.inr ⟨rfl, rfl, hge⟩
    · rename_i hflt
      cases hcc : s.copyContent with
      | mk s₀ rest =>
        cases rest with
        | mk n cerr =>
          rw [hcc] at h
          cases cerr with
          | none =>
            simp only at h
            split at h
            · -- n = 0 without error: no closing tag anywhere; hand back
              rename_i hn0
              subst hn0
              have hs0 : s₀ = s := copyContent_zero hcc
              subst hs0
              have hstuck := copyContent_stuck hcc
              obtain ⟨hT1, hM1, hbuf1, hbatch1, hdone1, htok, htn⟩ :=
                splitFinish_inv h
              have hel' : (canon s₀.Tag s'.buf).1 = [] := by
                rw [hbuf1, hstuck]
              refine ⟨hT1, hM1, ?_, fun _ => hel', ?_, ?_,
                ⟨0, by omega, ?_, ?_⟩, ?_⟩
              · intro hfa
                rw [hfa, hdone] at hdone1
                exact hdone1
              · intro hfa _
                rw [hfa] at hdone1
                rw [hdone1]
                rfl
              · rw [hel', hstuck]
                simp only [List.flatten_nil, List.append_nil]
                cases hae : ae with
                | true =>
                  rw [hae] at hdone1 htok
                  rw [hdone1]
                  simpa using htok
                | false =>
                  rw [htn hae]
                  rw [hae] at hdone1
                  rw [hdone1, hdone, hbatch1]
                  simp
              · rw [hbuf1, hstuck]
                simp
              · intro x j hj; omega
              · intro hts hd'
                cases hae : ae with
                | true =>
                  rw [hae] at hdone1
                  rw [hdone1] at hd'
                  cases hd'
                | false =>
                  rw [htn hae] at hts
                  cases hts
            · -- extracted one element: account for it and loop
              rename_i hn0
              have hbl := copyContent_buf_lt hcc hn0
              obtain ⟨hT0, hM0, hD0⟩ := copyContent_tag s
              rw [hcc] at hT0 hM0 hD0
              dsimp only at hT0 hM0 hD0
              obtain ⟨hacc, hrest⟩ := copyContent_canon hcc hn0
              obtain ⟨hT', hM', hnd', hdc', hte', heq', ⟨k, hk, hr', hs'⟩, hm'⟩ :=
                ih s₀ dl ae s' adv t h (by omega) (by rw [hT0]; exact hol)
                  (by rw [hD0]; exact hdone)
              rw [hT0] at hT' hdc' heq' hk hr' hs'
              rw [hM0] at hM'
              refine ⟨hT', hM', hnd', hdc', hte', ?_, ⟨k, ?_, ?_, ?_⟩, ?_⟩
              · rw [heq']
                exact hacc.symm
              · rw [hrest]; exact hk
              · rw [hr', hrest]
              · rw [hrest]; exact hs'
              · intro hts hd'
                rcases hm' hts hd' with hlt | ⟨hbe, -, -⟩
                · exact Or.inl (by omega)
                · exact Or.inl (by rw [hbe]; exact hbl)
          | some e =>
            cases e with
            | openTagNotFound =>
              -- no opening tag: prune the buffer, then hand back / flush
              obtain ⟨hs0, -⟩ := copyContent_err hcc
              subst hs0
              obtain ⟨hno, hcanon⟩ := copyContent_noOpen hcc
              obtain ⟨hcpr, k, hk, hprbuf, hsafe⟩ := pruneBuf_safe hol hno
              have hprT := pruneBuf_Tag s₀ dl
              have hprM := pruneBuf_MBA s₀ dl
              have hprB := pruneBuf_batch s₀ dl
              have hprD := pruneBuf_done s₀ dl
              obtain ⟨hT1, hM1, hbuf1, hbatch1, hdone1, htok, htn⟩ :=
                splitFinish_inv h
              have hel' : (canon s₀.Tag s'.buf).1 = [] := by
                rw [hbuf1]
                rw [hcpr]
              refine ⟨hT1.trans hprT, hM1.trans hprM, ?_, fun _ => hel', ?_, ?_,
                ⟨k, ?_, ?_, ?_⟩, ?_⟩
              · intro hfa
                rw [hfa, hprD, hdone] at hdone1
                exact hdone1
              · intro hfa _
                rw [hfa] at hdone1
                rw [hdone1]
                rfl
              · rw [hel', hcanon]
                simp only [List.flatten_nil, List.append_nil]
                cases hae : ae with
                | true =>
                  rw [hae] at hdone1 htok
                  rw [hdone1]
                  rw [hprB] at htok
                  simpa using htok
                | false =>
                  rw [htn hae]
                  rw [hae] at hdone1
                  rw [hdone1, hprD, hdone, hbatch1, hprB]
                  simp
              · rw [hcanon]
                exact hk
              · rw [hbuf1, hcpr, hcanon]
                exact hprbuf
              · rw [hcanon]
                exact hsafe
              · intro hts hd'
                cases hae : ae with
                | true =>
                  rw [hae] at hdone1
                  rw [hdone1] at hd'
                  cases hd'
                | false =>
                  rw [htn hae] at hts
                  cases hts
            | maxBufSizeExceeded => simp at h
            | garbledInput => simp at h
            | nestedTagsNotImplemented => simp at h

/-- Canonical accounting across one error-free `Split` call on a live
splitter. -/
theorem Split_canon {s : TagSplitter} {d : Parallel.Bytes} {ae : Bool}
    {s' : TagSplitter} {adv : Nat} {t : Option Parallel.Bytes}
    (h : s.Split d ae = (s', adv, t, none))
    (hol : s.Tag.length ≤ 8190) (hdone : s.done = false) :
    s'.Tag = s.Tag ∧ s'.MaxBytesApprox = s.MaxBytesApprox ∧
    (ae = false → s'.done = false) ∧
    (s'.done = true → (canon s.Tag s'.buf).1 = []) ∧
    (ae = true → t = none → s'.done = true) ∧
    (t.toList.flatten ++ (if s'.done = true then [] else s'.batch) ++
        (canon s.Tag s'.buf).1.flatten =
      s.batch ++ (canon s.Tag (s.buf ++ d)).1.flatten) ∧
    (∃ k, k ≤ (canon s.Tag (s.buf ++ d)).2.length ∧
      (canon s.Tag s'.buf).2 = (canon s.Tag (s.buf ++ d)).2.drop k ∧
      ∀ (x : Parallel.Bytes) (j : Nat), j < k →
        ¬ openOccAt s.Tag ((canon s.Tag (s.buf ++ d)).2 ++ x) j) ∧
    (t.isSome = true → s'.done = false →
      s'.buf.length < (s.buf ++ d).length ∨
      (s'.buf = s.buf ++ d ∧ s'.batch = [] ∧ s.maxBytes ≤ s.batch.length)) := by
  rw [TagSplitter.Split] at h
  split at h
  · simp at h
  · split at h
    · rename_i hdn
      rw [hdone] at hdn
      cases hdn
    · rw [splitLoop] at h
      exact splitLoopF_canon _ _ d.length ae s' adv t h (by simp) hol hdone

/-- `openOccAt` only depends on the dropped suffix. -/
theorem openOccAt_congr {tag w₁ w₂ : Parallel.Bytes} {j₁ j₂ : Nat}
    (h : w₁.drop j₁ = w₂.drop j₂) :
    openOccAt tag w₁ j₁ ↔ openOccAt tag w₂ j₂ := by
  rw [openOccAt, openOccAt, h]

/-- The invariant is preserved by an error-free mid-stream `Split` call fed
the next chunk of the stream. -/
theorem C1Inv_step {tag u : Parallel.Bytes} {m : Nat} {acc : Parallel.Bytes}
    {s : TagSplitter} {d : Parallel.Bytes} {s' : TagSplitter} {adv : Nat}
    {t : Option Parallel.Bytes}
    (hol : tag.length ≤ 8190)
    (hdrop : u.drop m = d ++ u.drop (m + d.length))
    (hspl : s.Split d false = (s', adv, t, none))
    (hinv : C1Inv tag u m acc s) :
    C1Inv tag u (m + d.length) (acc ++ t.toList.flatten) s' := by
  obtain ⟨hTag, hdone, heq, k, hk, hrest, hsafe⟩ := hinv
  have hc' : u.take (m + d.length) = u.take m ++ d := by
    rw [List.take_add, hdrop, List.take_left]
  have hre : ((canon tag (u.take m)).2 ++ d) ++ u.drop (m + d.length) =
      (canon tag (u.take m)).2 ++ u.drop m := by
    rw [List.append_assoc, ← hdrop]
  obtain ⟨hA1, hA2⟩ := canon_append tag s.buf.length s.buf d (le_refl _)
  obtain ⟨hB1, hB2⟩ :=
    canon_append tag (u.take m).length (u.take m) d (le_refl _)
  have hsafe' : ∀ j < k, ¬ openOccAt tag ((canon tag (u.take m)).2 ++ d) j := by
    intro j hj hocc
    refine hsafe j hj ?_
    rw [← hre]
    exact openOccAt_append (by rw [List.length_append]; omega) hocc
  have hrd : (canon tag s.buf).2 ++ d =
      ((canon tag (u.take m)).2 ++ d).drop k := by
    rw [hrest, List.drop_append_of_le_length hk]
  obtain ⟨hd1, hd2⟩ := @canon_drop tag ((canon tag (u.take m)).2 ++ d) k
    (by rw [List.length_append]; omega) hsafe'
  obtain ⟨hT', -, hnd', -, -, heqS, ⟨k₂, hk₂, hr₂, hs₂⟩, -⟩ :=
    Split_canon hspl (by rw [hTag]; exact hol) hdone
  rw [hTag] at hT' heqS hk₂ hr₂ hs₂
  have hd' : s'.done = false := hnd' rfl
  have e3 : (canon tag ((canon tag s.buf).2 ++ d)).1 =
      (canon tag ((canon tag (u.take m)).2 ++ d)).1 := by
    rw [hrd]
    exact hd1
  have hA2' : (canon tag (s.buf ++ d)).2 =
      (canon tag (((canon tag (u.take m)).2 ++ d).drop k)).2 := by
    rw [hA2, hrd]
  have hR' : (canon tag (u.take (m + d.length))).2 =
      (canon tag ((canon tag (u.take m)).2 ++ d)).2 := by
    rw [hc']
    exact hB2
  refine ⟨hT', hd', ?_, ?_⟩
  · -- token accounting
    have hif : (if s'.done = true then ([] : Parallel.Bytes) else s'.batch) =
        s'.batch := by rw [hd']; simp
    rw [hif] at heqS
    have e1 : (canon tag (u.take m ++ d)).1.flatten =
        (canon tag (u.take m)).1.flatten ++
        (canon tag ((canon tag (u.take m)).2 ++ d)).1.flatten := by
      rw [hB1, List.flatten_append]
    have e2 : (canon tag (s.buf ++ d)).1.flatten =
        (canon tag s.buf).1.flatten ++
        (canon tag ((canon tag (u.take m)).2 ++ d)).1.flatten := by
      rw [hA1, List.flatten_append, e3]
    calc (acc ++ t.toList.flatten) ++ s'.batch ++ (canon tag s'.buf).1.flatten
        = acc ++ (t.toList.flatten ++ s'.batch ++
            (canon tag s'.buf).1.flatten) := by
          simp only [List.append_assoc]
      _ = acc ++ (s.batch ++ (canon tag (s.buf ++ d)).1.flatten) := by
          rw [heqS]
      _ = (acc ++ s.batch ++ (canon tag s.buf).1.flatten) ++
            (canon tag ((canon tag (u.take m)).2 ++ d)).1.flatten := by
          rw [e2]
          simp only [List.append_assoc]
      _ = (canon tag (u.take m)).1.flatten ++
            (canon tag ((canon tag (u.take m)).2 ++ d)).1.flatten := by
          rw [heq]
      _ = (canon tag (u.take m ++ d)).1.flatten := by rw [e1]
      _ = (canon tag (u.take (m + d.length))).1.flatten := by rw [hc']
  · -- remainder tracking
    rcases hd2 with hcase | ⟨-, hfull, hdropped⟩
    · refine ⟨k₂, ?_, ?_, ?_⟩
      · rw [hR', ← hcase, ← hA2']
        exact hk₂
      · rw [hR', ← hcase, ← hA2']
        exact hr₂
      · intro j hj hocc
        refine hs₂ (u.drop (m + d.length)) j hj ?_
        rw [hA2', hcase, ← hR']
        exact hocc
    · have hRfull : (canon tag (u.take (m + d.length))).2 =
          (canon tag (u.take m)).2 ++ d := by rw [hR', hfull]
      have hbd : (canon tag (s.buf ++ d)).2 =
          ((canon tag (u.take m)).2 ++ d).drop k := by
        rw [hA2', hdropped]
      have hlen2 : k₂ ≤ ((canon tag (u.take m)).2 ++ d).length - k := by
        rw [hbd] at hk₂
        rw [List.length_drop] at hk₂
        exact hk₂
      refine ⟨k + k₂, ?_, ?_, ?_⟩
      · rw [hRfull, List.length_append]
        rw [List.length_append] at hlen2
        omega
      · rw [hRfull, hr₂, hbd, List.drop_drop]
      · intro j hj hocc
        rw [hRfull] at hocc
        by_cases hjk : j < k
        · rw [hre] at hocc
          exact hsafe j hjk hocc
        · have hjlen : j ≤ ((canon tag (u.take m)).2 ++ d).length := by
            rw [List.length_append]
            rw [List.length_append] at hlen2
            omega
          have hj2 : j - k ≤ (((canon tag (u.take m)).2 ++ d).drop k).length := by
            rw [List.length_drop]
            rw [List.length_append] at hlen2 ⊢
            omega
          have hdropeq : (((canon tag (u.take m)).2 ++ d) ++
                u.drop (m + d.length)).drop j =
              ((((canon tag (u.take m)).2 ++ d).drop k) ++
                u.drop (m + d.length)).drop (j - k) := by
            rw [List.drop_append_of_le_length hjlen,
                List.drop_append_of_le_length hj2,
                List.drop_drop, show k + (j - k) = j from by omega]
          refine hs₂ (u.drop (m + d.length)) (j - k) (by omega) ?_
          rw [hbd]
          exact (openOccAt_congr hdropeq).mp hocc

/-- `splitFinish` never reports an error. -/
theorem splitFinish_err {q : TagSplitter} {dl : Nat} {ae : Bool}
    {s' : TagSplitter} {adv : Nat} {t : Option Parallel.Bytes}
    {err : Option SplitError} (h : splitFinish q dl ae = (s', adv, t, err)) :
    err = none := by
  unfold splitFinish at h
  split at h
  · split at h <;> (simp only [Prod.mk.injEq] at h; exact h.2.2.2.symm)
  · simp only [Prod.mk.injEq] at h
    exact h.2.2.2.symm

/-- The `Split` loop never reports `io.EOF` (only the `done` gate does). -/
theorem splitLoopF_no_eof :
    ∀ (fuel : Nat) (s : TagSplitter) (dl : Nat) (ae : Bool)
      (s' : TagSplitter) (adv : Nat) (t : Option Parallel.Bytes),
      splitLoopF fuel s dl ae = (s', adv, t, some SplitError.eof) → False := by
  intro fuel
  induction fuel with
  | zero =>
    intro s dl ae s' adv t h
    rw [splitLoopF] at h
    simp at h
  | succ f ihe =>
    intro s dl ae s' adv t h
    rw [splitLoopF] at h
    split at h
    · simp at h
    · cases hcc : s.copyContent with
      | mk s₀ r =>
        cases r with
        | mk n cerr =>
          rw [hcc] at h
          cases cerr with
          | none =>
            simp only at h
            split at h
            · exact absurd (splitFinish_err h) (by simp)
            · exact ihe s₀ dl ae s' adv t h
          | some e =>
            cases e with
            | openTagNotFound => exact absurd (splitFinish_err h) (by simp)
            | maxBufSizeExceeded => simp at h
            | garbledInput => simp at h
            | nestedTagsNotImplemented => simp at h

/-- A live splitter has drain measure at least 2. -/
theorem drainMeasure_live {s : TagSplitter} (hdone : s.done = false) :
    2 ≤ drainMeasure s := by
  rw [drainMeasure, hdone]
  have h2 : (if (false : Bool) = true then 0 else 2) = 2 := rfl
  rw [h2]
  omega

/-- Feeding all remaining chunks error-free carries the invariant to the end
of the stream. -/
theorem feedChunks_canon {tag u : Parallel.Bytes} (hol : tag.length ≤ 8190) :
    ∀ (chunks : List Parallel.Bytes) (m : Nat) (acc : Parallel.Bytes)
      (s : TagSplitter) (toks : List Parallel.Bytes) (sf : TagSplitter),
      u.drop m = chunks.flatten →
      C1Inv tag u m acc s →
      feedChunks s chunks = (toks, sf, true) →
      C1Inv tag u u.length (acc ++ toks.flatten) sf := by
  intro chunks
  induction chunks with
  | nil =>
    intro m acc s toks sf hdr hinv hfc
    rw [feedChunks] at hfc
    simp only [Prod.mk.injEq] at hfc
    obtain ⟨ht, hs, -⟩ := hfc
    subst ht
    subst hs
    simp only [List.flatten_nil] at hdr
    have hml : u.length ≤ m := List.drop_eq_nil_iff_le.mp hdr
    have h1 : u.take m = u.take u.length := by
      rw [List.take_of_length_le hml, List.take_length]
    have h2 : u.drop m = u.drop u.length := by
      rw [hdr, List.drop_length]
    rw [C1Inv] at hinv ⊢
    rw [← h1, ← h2]
    simpa using hinv
  | cons dd rest ihc =>
    intro m acc s toks sf hdr hinv hfc
    rw [feedChunks] at hfc
    cases hspl : s.Split dd false with
    | mk s1 r1 =>
      cases r1 with
      | mk adv1 r2 =>
        cases r2 with
        | mk t1 e1 =>
          rw [hspl] at hfc
          cases e1 with
          | none =>
            simp only at hfc
            cases hfc2 : feedChunks s1 rest with
            | mk toks2 q =>
              cases q with
              | mk sf2 ok2 =>
                rw [hfc2] at hfc
                simp only [Prod.mk.injEq] at hfc
                obtain ⟨htk, hsf, hok⟩ := hfc
                rw [List.flatten_cons] at hdr
                have hd2 : u.drop (m + dd.length) = rest.flatten := by
                  rw [← List.drop_drop, hdr, List.drop_left]
                have hdropstep : u.drop m = dd ++ u.drop (m + dd.length) := by
                  rw [hd2]
                  exact hdr
                have hinv1 := C1Inv_step hol hdropstep hspl hinv
                have hres := ihc (m + dd.length) (acc ++ t1.toList.flatten)
                  s1 toks2 sf2 hd2 hinv1 (by rw [hfc2, hok])
                rw [← hsf, ← htk]
                rw [show acc ++ (t1.toList ++ toks2).flatten =
                    (acc ++ t1.toList.flatten) ++ toks2.flatten from by
                  simp [List.flatten_append]]
                exact hres
          | some e =>
            simp only [Prod.mk.injEq] at hfc
            obtain ⟨-, -, hfalse⟩ := hfc
            cases hfalse

/-- Error-free draining of a live splitter collects exactly the staged
batch followed by the canonical content of the buffer. -/
theorem drainF_canon {tag : Parallel.Bytes} (htag : tag ≠ [])
    (hol : tag.length ≤ 8190) :
    ∀ (n fuel : Nat) (s : TagSplitter) (toks : List Parallel.Bytes),
      drainMeasure s ≤ n → drainMeasure s < fuel →
      s.Tag = tag → s.done = false →
      drainF fuel s = (toks, true) →
      toks.flatten = s.batch ++ (canon tag s.buf).1.flatten := by
  intro n
  induction n with
  | zero =>
    intro fuel s toks hn hfuel hTag hdone hdr
    have := drainMeasure_live hdone
    omega
  | succ nn ihd =>
    intro fuel s toks hn hfuel hTag hdone hdr
    have hm2 := drainMeasure_live hdone
    cases fuel with
    | zero => omega
    | succ ff =>
      rw [drainF] at hdr
      cases hspl : s.Split [] true with
      | mk s1 r1 =>
        cases r1 with
        | mk adv1 r2 =>
          cases r2 with
          | mk t1 e1 =>
            rw [hspl] at hdr
            cases t1 with
            | some tv =>
              cases e1 with
              | none =>
                simp only at hdr
                cases hr : drainF ff s1 with
                | mk toks2 ok2 =>
                  rw [hr] at hdr
                  simp only [Prod.mk.injEq] at hdr
                  obtain ⟨htk, hok⟩ := hdr
                  obtain ⟨hT', hM', -, hdc', -, heqS, -, hm₂⟩ :=
                    Split_canon hspl (by rw [hTag]; exact hol) hdone
                  rw [hTag] at hT' hdc' heqS
                  rw [List.append_nil] at heqS
                  by_cases hdn1 : s1.done = true
                  · -- the flush call: everything is in this final token
                    have hel1 : (canon tag s1.buf).1 = [] := hdc' hdn1
                    rw [if_pos hdn1, hel1] at heqS
                    simp only [Option.toList_some, List.flatten_cons,
                      List.flatten_nil, List.append_nil] at heqS
                    cases ff with
                    | zero => omega
                    | succ fff =>
                      rw [drainF] at hr
                      rw [Split_done s1 [] true (by rw [hT']; exact htag)
                        hdn1] at hr
                      simp only [Prod.mk.injEq] at hr
                      obtain ⟨htk2, -⟩ := hr
                      rw [← htk, ← htk2]
                      simp only [List.flatten_cons, List.flatten_nil,
                        List.append_nil]
                      exact heqS
                  · -- still live: recurse on the strictly smaller measure
                    have hdn1' : s1.done = false := by
                      cases hdn : s1.done
                      · rfl
                      · exact absurd hdn hdn1
                    rw [if_neg (by rw [hdn1']; simp)] at heqS
                    have hdec : drainMeasure s1 < drainMeasure s := by
                      rcases hm₂ rfl hdn1' with hlt | ⟨hbe, hbat, hge⟩
                      · rw [List.append_nil] at hlt
                        rw [drainMeasure, drainMeasure, hdone, hdn1']
                        have e1 : (if (false : Bool) = true then 0 else 2) = 2 :=
                          rfl
                        rw [e1]
                        have f1 : (if s1.maxBytes ≤ s1.batch.length
                            then 1 else 0) ≤ 1 := by
                          split <;> omega
                        omega
                      · rw [List.append_nil] at hbe
                        rw [drainMeasure, drainMeasure, hdone, hdn1', hbe, hbat]
                        have e1 : (if (false : Bool) = true then 0 else 2) = 2 :=
                          rfl
                        rw [e1]
                        have f1 : (if s1.maxBytes ≤
                            ([] : Parallel.Bytes).length then 1 else 0) = 0 := by
                          have := maxBytes_pos s1
                          simp only [List.length_nil]
                          split <;> omega
                        have f2 : (if s.maxBytes ≤ s.batch.length
                            then 1 else 0) = 1 := by
                          split <;> omega
                        rw [f1, f2]
                        omega
                    have hrec := ihd ff s1 toks2 (by omega) (by omega)
                      hT' hdn1' (by rw [hr, hok])
                    rw [← htk]
                    simp only [List.flatten_cons]
                    rw [hrec, ← List.append_assoc]
                    simp only [Option.toList_some, List.flatten_cons,
                      List.flatten_nil, List.append_nil] at heqS
                    exact heqS
              | some e =>
                simp only at hdr
                simp only [Prod.mk.injEq] at hdr
                obtain ⟨-, hfalse⟩ := hdr
                cases hfalse
            | none =>
              cases e1 with
              | none =>
                simp only at hdr
                simp only [Prod.mk.injEq] at hdr
                obtain ⟨htk, -⟩ := hdr
                obtain ⟨hT', -, -, hdc', hte', heqS, -, -⟩ :=
                  Split_canon hspl (by rw [hTag]; exact hol) hdone
                rw [hTag] at hdc' heqS
                rw [List.append_nil] at heqS
                have hdn1 : s1.done = true := hte' rfl rfl
                rw [if_pos hdn1, hdc' hdn1] at heqS
                simp only [Option.toList_none, List.flatten_nil,
                  List.nil_append, List.append_nil] at heqS
                rw [← htk]
                simp only [List.flatten_nil]
                exact heqS
              | some e =>
                simp only at hdr
                simp only [Prod.mk.injEq] at hdr
                obtain ⟨htk, hbeq⟩ := hdr
                rw [beq_iff_eq] at hbeq
                subst hbeq
                rw [TagSplitter.Split] at hspl
                split at hspl
                · rename_i htg
                  rw [hTag] at htg
                  exact absurd htg htag
                · split at hspl
                  · rename_i hdn
                    rw [hdone] at hdn
                    cases hdn
                  · rw [splitLoop] at hspl
                    exact absurd hspl (fun hh =>
                      splitLoopF_no_eof _ _ _ _ _ _ _ hh)

/-- An error-free drained run emits exactly the canonical elements of the
whole input stream, independently of the chunking. -/
theorem runDrain_canon {tag : Parallel.Bytes} {mba : Nat}
    {chunks toks : List Parallel.Bytes}
    (htag : tag ≠ []) (hol : tag.length ≤ 8190)
    (h : runDrain { Tag := tag, MaxBytesApprox := mba } chunks = (toks, true)) :
    toks.flatten = (canon tag chunks.flatten).1.flatten := by
  rw [runDrain] at h
  cases hfc : feedChunks { Tag := tag, MaxBytesApprox := mba } chunks with
  | mk ftoks q =>
    cases q with
    | mk sf fok =>
      rw [hfc] at h
      dsimp only at h
      cases hdr : drainF (drainMeasure sf + 1) sf with
      | mk dtoks dok =>
        rw [hdr] at h
        simp only [Prod.mk.injEq, Bool.and_eq_true] at h
        obtain ⟨htk, hfok, hdok⟩ := h
        have hinv0 : C1Inv tag chunks.flatten 0 []
            { Tag := tag, MaxBytesApprox := mba } := by
          rw [C1Inv]
          refine ⟨rfl, rfl, ?_, ⟨0, ?_, ?_, ?_⟩⟩
          · simp [canon_nil]
          · omega
          · simp [canon_nil]
          · intro j hj
            omega
        have hfinal := feedChunks_canon hol chunks 0 []
          { Tag := tag, MaxBytesApprox := mba } ftoks sf
          (by rw [List.drop_zero]) hinv0 (by rw [hfc, hfok])
        rw [C1Inv] at hfinal
        obtain ⟨hTsf, hdsf, heqf, -⟩ := hfinal
        have hdc := drainF_canon htag hol (drainMeasure sf)
          (drainMeasure sf + 1) sf dtoks (le_refl _) (by omega)
          hTsf hdsf (by rw [hdr, hdok])
        simp only [List.nil_append] at heqf
        rw [← htk, List.flatten_append, hdc, ← List.append_assoc, heqf,
          List.take_length]

/-- **C1, counterexample.** Boundary invariance fails for the claimed raw
protocol (successive `Split(data, atEOF)` calls with `atEOF = true` on the
final call, collecting the returned tokens): on the same input bytes
"<a>1</a><a>2</a>" (with `MaxBytesApprox = 1`), the single-chunk run emits
only "<a>1</a>" -- the final call returns at most one token and the second
element stays in the internal buffer -- while the two-chunk run emits
"<a>1</a><a>2</a>", so the token concatenations differ. -/
theorem C1_counterexample :
    strBytes "<a>1</a>" ++ strBytes "<a>2</a>" = strBytes "<a>1</a><a>2</a>" ∧
    tokensConcat { Tag := strBytes "a", MaxBytesApprox := 1 }
        (chunkCalls [strBytes "<a>1</a><a>2</a>"]) ≠
      tokensConcat { Tag := strBytes "a", MaxBytesApprox := 1 }
        (chunkCalls [strBytes "<a>1</a>", strBytes "<a>2</a>"]) :=
  ⟨by decide, by decide⟩

/-- **C1 (amended).** Tag-splitter boundary invariance holds for drained
runs: for any two chunkings of the same input bytes driven the way
`bufio.Scanner` drives a `SplitFunc` (each chunk fed with `atEOF = false`,
then `Split([], true)` repeated at end of input until no token comes back),
if both runs finish without an error and the tag is within the prune-safety
bound (at most 8190 bytes, so a pruned prefix can never cut an opening tag),
then the concatenation of all emitted tokens is identical, independent of
the chunking. -/
theorem C1_boundary_invariance_drained (tag : Parallel.Bytes) (mba : Nat)
    (chunks₁ chunks₂ toks₁ toks₂ : List Parallel.Bytes)
    (htag : tag ≠ []) (hol : tag.length ≤ 8190)
    (hsame : chunks₁.flatten = chunks₂.flatten)
    (h₁ : runDrain { Tag := tag, MaxBytesApprox := mba } chunks₁ =
      (toks₁, true))
    (h₂ : runDrain { Tag := tag, MaxBytesApprox := mba } chunks₂ =
      (toks₂, true)) :
    toks₁.flatten = toks₂.flatten := by
  rw [runDrain_canon htag hol h₁, runDrain_canon htag hol h₂, hsame]

/-- Witness for the amended C1 theorem: the two chunkings of
"<a>1</a><a>2</a>" from the counterexample, driven as drained runs, both
finish cleanly and emit the same tokens. -/
theorem C1_drained_witness :
    ((strBytes "a" ≠ []) ∧ (strBytes "a").length ≤ 8190 ∧
     ([strBytes "<a>1</a><a>2</a>"] : List Parallel.Bytes).flatten =
       [strBytes "<a>1</a>", strBytes "<a>2</a>"].flatten ∧
     runDrain { Tag := strBytes "a", MaxBytesApprox := 1 }
         [strBytes "<a>1</a><a>2</a>"] =
       ([strBytes "<a>1</a>", strBytes "<a>2</a>"], true) ∧
     runDrain { Tag := strBytes "a", MaxBytesApprox := 1 }
         [strBytes "<a>1</a>", strBytes "<a>2</a>"] =
       ([strBytes "<a>1</a>", strBytes "<a>2</a>"], true)) ∧
    ([strBytes "<a>1</a>", strBytes "<a>2</a>"] :
        List Parallel.Bytes).flatten =
      [strBytes "<a>1</a>", strBytes "<a>2</a>"].flatten := by
  refine ⟨⟨by decide, by decide, by decide, by decide, by decide⟩, ?_⟩
  exact C1_boundary_invariance_drained (strBytes "a") 1
    [strBytes "<a>1</a><a>2</a>"] [strBytes "<a>1</a>", strBytes "<a>2</a>"]
    [strBytes "<a>1</a>", strBytes "<a>2</a>"]
    [strBytes "<a>1</a>", strBytes "<a>2</a>"]
    (by decide) (by decide) (by decide) (by decide) (by decide)

end Parallel.Record

namespace Parallel.Proc

/-! ## Claims C6, C7, C8, C10: the parallel line processor -/

theorem latchAfter_append {E : Type} (w : Option E) (a b : List E) :
    latchAfter w (a ++ b) = latchAfter (latchAfter w a) b := by
  cases hb : b with
  | nil =>
    simp [latchAfter]
  | cons x xs =>
    unfold latchAfter
    rw [List.getLast?_append_of_ne_nil _ (by simp)]
    cases hgl : (x :: xs).getLast? with
    | none =>
      rw [List.getLast?_eq_none_iff] at hgl
      cases hgl
    | some e => rfl

theorem processBatch_latch {E : Type}
    (f : Parallel.Bytes → Parallel.Bytes × Option E) :
    ∀ (batch : List Parallel.Bytes) (wErr : Option E),
      (processBatch f wErr batch).1 =
        latchAfter wErr (processBatch f wErr batch).2.2 := by
  intro batch
  induction batch with
  | nil => intro wErr; simp [processBatch, latchAfter]
  | cons b rest ih =>
    intro wErr
    simp only [processBatch]
    cases hfb : (f b).2 with
    | none =>
      simp only [Option.toList, List.nil_append]
      exact ih wErr
    | some e =>
      simp only [Option.toList, List.singleton_append]
      have h1 : (e :: (processBatch f (some e) rest).2.2) =
          [e] ++ (processBatch f (some e) rest).2.2 := rfl
      rw [h1, latchAfter_append]
      have h2 : latchAfter wErr [e] = some e := by simp [latchAfter]
      rw [h2]
      exact ih (some e)

theorem runLoop_latch {E : Type} (nw : Int)
    (f : Parallel.Bytes → Parallel.Bytes × Option E) (bs : Nat) :
    ∀ (recs : List Parallel.Bytes) (wErr : Option E)
      (batch : List Parallel.Bytes) (w : Option E) (o : List Parallel.Bytes)
      (tr : List E),
      runLoop nw f bs recs wErr batch = some (w, o, tr) →
      w = latchAfter wErr tr := by
  intro recs
  induction recs with
  | nil =>
    intro wErr batch w o tr h
    rw [runLoop] at h
    split at h
    · cases h
    · simp only [Option.some.injEq] at h
      have h1 := congrArg Prod.fst h
      have h3 := congrArg (fun x => x.2.2) h
      simp only at h1 h3
      rw [← h1, ← h3]
      exact processBatch_latch f batch wErr
  | cons r rest ih =>
    intro wErr batch w o tr h
    rw [runLoop] at h
    split at h
    · split at h
      · -- latch already set at a batch boundary: break, final dispatch
        split at h
        · cases h
        · simp only [Option.some.injEq] at h
          have h1 := congrArg Prod.fst h
          have h3 := congrArg (fun x => x.2.2) h
          simp only at h1 h3
          rw [← h1, ← h3]
          exact processBatch_latch f _ wErr
      · rename_i hws
        have hwe : wErr = none := by
          cases wErr with
          | none => rfl
          | some e => simp at hws
        split at h
        · cases h
        · simp only [Option.map_eq_some'] at h
          obtain ⟨⟨w2, o2, t2⟩, hrun, hmk⟩ := h
          have h1 := congrArg Prod.fst hmk
          have h3 := congrArg (fun x => x.2.2) hmk
          simp only at h1 h3
          rw [← h1, ← h3]
          have hstep := processBatch_latch f (batch ++ [r]) wErr
          have hih := ih _ _ w2 o2 t2 hrun
          rw [latchAfter_append, ← hstep]
          exact hih
    · exact ih _ _ w o tr h

/-- With no worker spawned, every path of the read loop reaches an
unbuffered-queue send (at the latest the unconditional final one), which
blocks forever. -/
theorem runLoop_none {E : Type} (nw : Int)
    (f : Parallel.Bytes → Parallel.Bytes × Option E) (bs : Nat)
    (hnw : nw ≤ 0) :
    ∀ (recs : List Parallel.Bytes) (wErr : Option E)
      (batch : List Parallel.Bytes),
      runLoop nw f bs recs wErr batch = none := by
  intro recs
  induction recs with
  | nil =>
    intro wErr batch
    rw [runLoop, if_pos hnw]
  | cons r rest ih =>
    intro wErr batch
    rw [runLoop]
    split
    · repeat' split
      all_goals first
      | rfl
      | (rename_i hc; exact absurd hnw hc)
    · exact ih _ _

theorem readRecords_nil (sep : Nat) : readRecords sep [] = [] := by
  rw [readRecords_eq]
  rw [Parallel.bytesIndex_nil _ (by simp)]

/-- Appending a separator-free tail after a fully separator-terminated
prefix does not change the records read. -/
theorem readRecords_append_tail (sep : Nat) :
    ∀ (n : Nat) (p t : Parallel.Bytes), p.length ≤ n →
      (p = [] ∨ p.getLast? = some sep) →
      Parallel.bytesIndex t [sep] = none →
      readRecords sep (p ++ t) = readRecords sep p := by
  intro n
  induction n with
  | zero =>
    intro p t hl hp ht
    have hpn : p = [] := List.eq_nil_of_length_eq_zero (by omega)
    subst hpn
    rw [List.nil_append, readRecords_nil, readRecords_eq, ht]
  | succ m ih =>
    intro p t hl hp ht
    rcases hp with hpn | hlast
    · subst hpn
      rw [List.nil_append, readRecords_nil, readRecords_eq, ht]
    · have hne : p ≠ [] := by
        intro hh
        rw [hh] at hlast
        simp at hlast
      have hsmem : sep ∈ p := by
        have := List.getLast?_eq_getLast p hne
        rw [this] at hlast
        have : p.getLast hne = sep := by
          simpa using hlast
        rw [← this]
        exact List.getLast_mem hne
      obtain ⟨pre, suf, hps⟩ := List.append_of_mem hsmem
      have hinf : ([sep] : Parallel.Bytes) <:+: p :=
        ⟨pre, suf, by rw [hps]; simp⟩
      have hsome : ∃ i, Parallel.bytesIndex p [sep] = some i := by
        have := (@Parallel.bytesIndex_infix_iff p [sep]).mpr hinf
        exact Option.isSome_iff_exists.mp this
      obtain ⟨i, hix⟩ := hsome
      have hile := Parallel.bytesIndex_some_le hix
      simp only [List.length_cons, List.length_nil] at hile
      have hixa : Parallel.bytesIndex (p ++ t) [sep] = some i :=
        Parallel.bytesIndex_append_of_some hix
      rw [readRecords_eq sep (p ++ t), hixa, readRecords_eq sep p, hix]
      show (p ++ t).take (i + 1) :: readRecords sep ((p ++ t).drop (i + 1)) =
        p.take (i + 1) :: readRecords sep (p.drop (i + 1))
      rw [List.take_append_of_le_length (by omega),
        List.drop_append_of_le_length (by omega)]
      have hdlen : (p.drop (i + 1)).length ≤ m := by
        rw [List.length_drop]
        omega
      have hdp : p.drop (i + 1) = [] ∨ (p.drop (i + 1)).getLast? = some sep := by
        cases hdn : p.drop (i + 1) with
        | nil => exact Or.inl rfl
        | cons x xs =>
          right
          have h5 : (p.take (i + 1) ++ p.drop (i + 1)).getLast? =
              (p.drop (i + 1)).getLast? :=
            List.getLast?_append_of_ne_nil _ (by rw [hdn]; simp)
          rw [List.take_append_drop] at h5
          rw [← hdn, ← h5]
          exact hlast
      rw [ih (p.drop (i + 1)) t hdlen hdp ht]

/-- **C10**: in line mode a final record not terminated by the separator is
silently dropped: the read loop breaks on end of file discarding the partial
read, so for any separator-free tail `t` after a fully terminated prefix
`p`, the records read — and the whole run: results, errors, observed-error
trace — are those of `p` alone; the bytes of `t` are never passed to the
transformation and never appear in the output. -/
theorem C10_unterminated_tail_dropped (E : Type) (nw : Int) (bs sep : Nat)
    (se : Bool) (f : Parallel.Bytes → Parallel.Bytes × Option E)
    (p t : Parallel.Bytes)
    (hp : p = [] ∨ p.getLast? = some sep)
    (ht : Parallel.bytesIndex t [sep] = none) :
    readRecords sep (p ++ t) = readRecords sep p ∧
    ProcessorRun nw bs sep se f (p ++ t) = ProcessorRun nw bs sep se f p := by
  have hrr := readRecords_append_tail sep p.length p t le_rfl hp ht
  refine ⟨hrr, ?_⟩
  unfold ProcessorRun
  rw [hrr]

/-- Witness for C10 at a concrete prefix and unterminated tail. -/
theorem C10_witness :
    readRecords 10 (strBytes "a\n" ++ strBytes "xyz") =
      readRecords 10 (strBytes "a\n") ∧
    ProcessorRun 1 2 10 true idTransform (strBytes "a\n" ++ strBytes "xyz") =
      ProcessorRun 1 2 10 true idTransform (strBytes "a\n") :=
  C10_unterminated_tail_dropped Nat 1 2 10 true idTransform
    (strBytes "a\n") (strBytes "xyz") (by decide) (by decide)

/-- **C6**: the run returns a non-nil error iff the transformation returned
a non-nil error on at least one dispatched record (the observed-error trace
is non-empty); with no transformation errors (and the model's sink and
source cannot fail) the run returns no error. -/
theorem C6_error_propagation (E : Type) (nw : Int) (bs sep : Nat) (se : Bool)
    (f : Parallel.Bytes → Parallel.Bytes × Option E) (input : Parallel.Bytes)
    (w : Option E) (o : List Parallel.Bytes) (tr : List E)
    (h : ProcessorRun nw bs sep se f input = some (w, o, tr)) :
    w.isSome ↔ tr ≠ [] := by
  have hw := runLoop_latch nw f bs _ none [] w o tr h
  rw [hw]
  unfold latchAfter
  cases htr : tr.getLast? with
  | none =>
    simp only [Option.isSome_none, Bool.false_eq_true, false_iff]
    rw [List.getLast?_eq_none_iff] at htr
    simp [htr]
  | some e =>
    simp only [Option.isSome_some, true_iff]
    intro hnil
    rw [hnil] at htr
    simp at htr

/-- Witness for C6: a failing transformation makes the run return an error. -/
theorem C6_witness :
    (some 97 : Option Nat).isSome ↔ ([97] : List Nat) ≠ [] :=
  C6_error_propagation Nat 1 1 10 true failingTransform (strBytes "a\n")
    (some 97) [[]] [97] (by decide)

/-- **C7 (amended)**: the latch never returns from an error to no-error
(once set it stays set), and `run()` returns the latch's final value, which
is the most recently observed error — a later error overwrites an earlier
one rather than being discarded. -/
theorem C7_latch_monotone_returns_last :
    (∀ (E : Type) (f : Parallel.Bytes → Parallel.Bytes × Option E)
        (batch : List Parallel.Bytes) (wErr : Option E),
      wErr.isSome → ((processBatch f wErr batch).1).isSome) ∧
    (∀ (E : Type) (nw : Int) (bs sep : Nat) (se : Bool)
        (f : Parallel.Bytes → Parallel.Bytes × Option E)
        (input : Parallel.Bytes) (w : Option E) (o : List Parallel.Bytes)
        (tr : List E),
      ProcessorRun nw bs sep se f input = some (w, o, tr) →
      w = latchAfter none tr) := by
  constructor
  · intro E f batch wErr hws
    rw [processBatch_latch]
    unfold latchAfter
    cases htr : (processBatch f wErr batch).2.2.getLast? with
    | none => exact hws
    | some e => simp
  · intro E nw bs sep se f input w o tr h
    exact runLoop_latch nw f bs _ none [] w o tr h

/-- **C7 (counterexample)**: two records whose transformations fail with
errors 97 then 98: both errors are observed (trace `[97, 98]`) and the run
returns 98 — the most recent, not the first, observed error, so the second
error was not discarded. -/
theorem C7_counterexample :
    ProcessorRun 1 1 10 true failingTransform (strBytes "a\nb\n") =
      some (some 98, [[], []], [97, 98]) ∧ (98 : Nat) ≠ 97 := by
  constructor
  · rfl
  · decide

/-- **C8 (amended)**: with `num_workers <= 0` the run does not surface a
configuration error — it never returns at all: no worker goroutine is
spawned, so the first send on the unbuffered queue (at the latest the
unconditional final batch send) blocks forever. -/
theorem C8_run_blocks_forever (E : Type) (nw : Int) (bs sep : Nat)
    (se : Bool) (f : Parallel.Bytes → Parallel.Bytes × Option E)
    (input : Parallel.Bytes) (h : nw ≤ 0) :
    ProcessorRun nw bs sep se f input = none := by
  unfold ProcessorRun
  exact runLoop_none nw f bs h _ _ _

/-- Witness for C8 at a concrete configuration. -/
theorem C8_witness :
    ProcessorRun 0 10000 10 true idTransform (strBytes "x\n") = none :=
  C8_run_blocks_forever Nat 0 10000 10 true idTransform (strBytes "x\n")
    (by decide)

/-- **C8 (counterexample)**: with `num_workers = 0` the run blocks forever
(`none` in the model) — it does not return an error value as claimed. -/
theorem C8_counterexample :
    ProcessorRun 0 10000 10 true idTransform (strBytes "x\ny\n") = none ∧
    ¬ ∃ (e : Nat) (o : List Parallel.Bytes) (tr : List Nat),
        ProcessorRun 0 10000 10 true idTransform (strBytes "x\ny\n") =
          some (some e, o, tr) := by
  refine ⟨rfl, ?_⟩
  rintro ⟨e, o, tr, h⟩
  rw [show ProcessorRun 0 10000 10 true idTransform (strBytes "x\ny\n") =
    none from rfl] at h
  cases h

end Parallel.Proc
